import Mathlib

/-!
Verification of the EvolutionaryAlgorithms_MathlerSolver core: the Mathler
puzzle engine, the grammar-driven genotype/phenotype mapping, the fitness
evaluator, and the generational evolutionary loop.

Modelling conventions for the shallow embedding of the Python sources:
* Python strings are modelled as `List Char`.
* Python numbers (int / float) are modelled as `ℚ`; the engine's
  `float.is_integer` normalisation is the identity under this model.
* Python's `float("-inf")` fitness sentinel is modelled as `⊥ : WithBot ℚ`.
* Functions that raise exceptions are modelled as `Option`-valued, with
  `none` standing for the raised exception.
* Calls to `random.random`, `random.randint` and `random.sample` are modelled
  by an explicit random stream (`RState`) threaded through each operation:
  `random.random()` reads the next rational of the `floats` stream and
  `random.randint(a, b)` maps the next natural of the `nats` stream into
  `[a, b]` by `a + n % (b + 1 - a)`.
-/

/-- Per-position feedback tag (engine/mathler_engine.py `TileColor`). -/
inductive TileColor where
  | GRAY
  | YELLOW
  | GREEN
deriving DecidableEq

open TileColor

/-- Characters allowed in expressions (engine/mathler_engine.py `_ALLOWED_CHARS`). -/
def ALLOWED_CHARS : List Char := "0123456789+-*/".toList

/-- Core of `compute_feedback`: position-wise GREEN / YELLOW / GRAY tags, with
the full secret kept for the membership test. -/
def fbCore (secret : List Char) : List Char → List Char → List TileColor
  | g :: gs, s :: ss =>
      (if g = s then GREEN else if g ∈ secret then YELLOW else GRAY)
        :: fbCore secret gs ss
  | _, _ => []

/-- engine/mathler_engine.py `compute_feedback`; `none` models the
`ValueError` raised on a length mismatch. -/
def compute_feedback (guess secret : List Char) : Option (List TileColor) :=
  if guess.length = secret.length then some (fbCore secret guess secret) else none

/-! ### Arithmetic evaluation: `safe_eval_expression`

The engine evaluates guesses with Python's `eval` restricted to the 14-symbol
alphabet.  On that alphabet Python parses integer literals (no redundant
leading zeros), unary `+`/`-`, binary `+ - * /`, floor division `//` and
power `**` with the usual precedences.  The embedding evaluates over `ℚ`;
a power with a non-integral exponent (an irrational float in Python) is
modelled as a failure, a case no caller in the repository can reach. -/

inductive Tok where
  | num (n : ℕ)
  | plus
  | minus
  | star
  | slash
  | dstar
  | dslash
deriving DecidableEq

/-- Maximal run of digits at the front of the character list. -/
def takeDigits : List Char → List Char × List Char
  | [] => ([], [])
  | c :: cs =>
      if c.isDigit then
        let p := takeDigits cs
        (c :: p.1, p.2)
      else ([], c :: cs)

/-- Numeric value of a digit string. -/
def digitsVal (ds : List Char) : ℕ :=
  ds.foldl (fun a c => 10 * a + (c.toNat - '0'.toNat)) 0

/-- Python 3 rejects integer literals with a redundant leading zero
(`"012"` is a syntax error, `"00"` is the literal zero). -/
def validNumeral (ds : List Char) : Bool :=
  ds.head? ≠ some '0' || ds.all (· = '0')

/-- Tokenizer for the restricted alphabet; fuel is one more than the input
length, and each step consumes at least one character. -/
def tokenizeAux : ℕ → List Char → Option (List Tok)
  | 0, _ => none
  | _ + 1, [] => some []
  | f + 1, c :: cs =>
      if c.isDigit then
        let p := takeDigits (c :: cs)
        if validNumeral p.1 then
          (tokenizeAux f p.2).map (Tok.num (digitsVal p.1) :: ·)
        else none
      else if c = '+' then (tokenizeAux f cs).map (Tok.plus :: ·)
      else if c = '-' then (tokenizeAux f cs).map (Tok.minus :: ·)
      else if c = '*' then
        match cs with
        | '*' :: cs2 => (tokenizeAux f cs2).map (Tok.dstar :: ·)
        | _ => (tokenizeAux f cs).map (Tok.star :: ·)
      else if c = '/' then
        match cs with
        | '/' :: cs2 => (tokenizeAux f cs2).map (Tok.dslash :: ·)
        | _ => (tokenizeAux f cs).map (Tok.slash :: ·)
      else none

def tokenize (s : List Char) : Option (List Tok) :=
  tokenizeAux (s.length + 1) s

/-- Python `a ** e` on rationals: integral exponents only (`0 ** negative`
raises `ZeroDivisionError`; a fractional exponent gives an irrational float,
modelled as failure). -/
def qpow (a e : ℚ) : Option ℚ :=
  if e.den = 1 then
    if a = 0 ∧ e.num < 0 then none else some (a ^ e.num)
  else none

def parseAtom : List Tok → Option (ℚ × List Tok)
  | Tok.num n :: ts => some ((n : ℚ), ts)
  | _ => none

/-- `power ::= atom ["**" unary]`, the exponent parser supplied by the caller. -/
def parsePowerWith (unary : List Tok → Option (ℚ × List Tok)) (ts : List Tok) :
    Option (ℚ × List Tok) :=
  match parseAtom ts with
  | none => none
  | some (a, ts1) =>
      match ts1 with
      | Tok.dstar :: ts2 =>
          match unary ts2 with
          | none => none
          | some (e, ts3) =>
              match qpow a e with
              | none => none
              | some v => some (v, ts3)
      | _ => some (a, ts1)

/-- `unary ::= ("+" | "-") unary | power`. -/
def parseUnary : ℕ → List Tok → Option (ℚ × List Tok)
  | 0, _ => none
  | f + 1, Tok.plus :: ts => parseUnary f ts
  | f + 1, Tok.minus :: ts => (parseUnary f ts).map (fun p => (-p.1, p.2))
  | f + 1, ts => parsePowerWith (parseUnary f) ts

/-- Left-associative operator chain over a tighter-binding level. -/
def chainlWith (next : List Tok → Option (ℚ × List Tok))
    (opOf : Tok → Option (ℚ → ℚ → Option ℚ)) :
    ℕ → ℚ → List Tok → Option (ℚ × List Tok)
  | 0, _, _ => none
  | _ + 1, acc, [] => some (acc, [])
  | f + 1, acc, t :: ts =>
      match opOf t with
      | none => some (acc, t :: ts)
      | some op =>
          match next ts with
          | none => none
          | some (b, ts2) =>
              match op acc b with
              | none => none
              | some v => chainlWith next opOf f v ts2

def mulOp : Tok → Option (ℚ → ℚ → Option ℚ)
  | Tok.star => some (fun a b => some (a * b))
  | Tok.slash => some (fun a b => if b = 0 then none else some (a / b))
  | Tok.dslash => some (fun a b => if b = 0 then none else some ((⌊a / b⌋ : ℤ) : ℚ))
  | _ => none

def addOp : Tok → Option (ℚ → ℚ → Option ℚ)
  | Tok.plus => some (fun a b => some (a + b))
  | Tok.minus => some (fun a b => some (a - b))
  | _ => none

def parseMulDiv (f : ℕ) (ts : List Tok) : Option (ℚ × List Tok) :=
  match parseUnary f ts with
  | none => none
  | some (v, ts1) => chainlWith (parseUnary f) mulOp f v ts1

def parseAddSub (f : ℕ) (ts : List Tok) : Option (ℚ × List Tok) :=
  match parseMulDiv f ts with
  | none => none
  | some (v, ts1) => chainlWith (parseMulDiv f) addOp f v ts1

/-- engine/mathler_engine.py `safe_eval_expression`; `none` models
`ExpressionError`. -/
def safe_eval_expression (expr : List Char) : Option ℚ :=
  match tokenize expr with
  | none => none
  | some ts =>
      match parseAddSub (4 * ts.length + 8) ts with
      | some (v, []) => some v
      | _ => none

/-! ### Puzzle state machine: engine/mathler_engine.py -/

/-- engine/mathler_engine.py `GuessResult`. Error messages are modelled by
short fixed strings (the Python messages interpolate the offending values). -/
structure GuessResult where
  guess : List Char
  feedback : List TileColor
  value : Option ℚ := none
  is_valid : Bool := false
  is_correct : Bool := false
  error : Option String := none
deriving DecidableEq

/-- engine/mathler_engine.py `MathlerGame` (the `__post_init__` validation of
the secret is a construction-time precondition, not part of `make_guess`). -/
structure MathlerGame where
  secret_expr : List Char
  target_value : ℚ
  max_guesses : ℕ
  history : List GuessResult := []

/-- engine/mathler_engine.py `MathlerGame.make_guess`: validation, optional
feedback, and the unconditional append to history.  The pure model returns
the result together with the updated game. -/
def make_guess (game : MathlerGame) (guess_expr : List Char) :
    GuessResult × MathlerGame :=
  if guess_expr.length ≠ game.secret_expr.length then
    let result : GuessResult :=
      { guess := guess_expr, feedback := [], value := none, is_valid := false,
        is_correct := false, error := some ("wrong expression length") }
    (result, { game with history := game.history ++ [result] })
  else if guess_expr.any (fun c => ¬ (c ∈ ALLOWED_CHARS)) then
    let result : GuessResult :=
      { guess := guess_expr, feedback := [], value := none, is_valid := false,
        is_correct := false, error := some ("illegal character in expression") }
    (result, { game with history := game.history ++ [result] })
  else
    match safe_eval_expression guess_expr with
    | none =>
        let result : GuessResult :=
          { guess := guess_expr, feedback := [], value := none, is_valid := false,
            is_correct := false, error := some ("failed to evaluate") }
        (result, { game with history := game.history ++ [result] })
    | some value =>
        if value ≠ game.target_value then
          let result : GuessResult :=
            { guess := guess_expr, feedback := [], value := some value,
              is_valid := false, is_correct := false,
              error := some ("wrong value") }
          (result, { game with history := game.history ++ [result] })
        else
          -- compute_feedback's length precondition was validated above
          let result : GuessResult :=
            { guess := guess_expr,
              feedback := fbCore game.secret_expr guess_expr game.secret_expr,
              value := some value, is_valid := true,
              is_correct := guess_expr = game.secret_expr, error := none }
          (result, { game with history := game.history ++ [result] })

/-- engine/mathler_engine.py `MathlerGame.is_solved`. -/
def is_solved (game : MathlerGame) : Bool :=
  game.history.any (·.is_correct)

/-- engine/mathler_engine.py `MathlerGame.guesses_remaining` (a Python int,
so it may go negative). -/
def guesses_remaining (game : MathlerGame) : ℤ :=
  (game.max_guesses : ℤ) - game.history.length

/-- Repeated submissions: fold `make_guess` over a list of candidates. -/
def applyGuesses (game : MathlerGame) (gs : List (List Char)) : MathlerGame :=
  gs.foldl (fun g e => (make_guess g e).2) game

/-! ### Grammar engine: grammar/decoder.py, grammar/encoder.py

Symbols are strings; nonterminals are fenced by the `<`...`>` convention
(grammar/bnf_loader.py `is_nonterminal`). -/

abbrev GSym := List Char

/-- grammar/bnf_loader.py `is_nonterminal`. -/
def is_nonterminal (s : GSym) : Bool :=
  s.head? = some '<' && s.getLast? = some '>'

/-- grammar/grammar_defs.py `START_SYMBOL`. -/
def START_SYMBOL : GSym := "<expr6>".toList

/-- The terminal alphabet of the grammar (digits and the four operators). -/
def TERMINALS : List Char := "0123456789+-*/".toList

/-- Modelled from the spec: the runtime grammar file
`grammar/mathler_expr6.bnf` is not among the repository's files, so the
grammar instance is taken from the in-repository definition
`grammar/grammar_defs_OLD.py` (the same fixed-shape 6-character expression
grammar the spec describes).  A mapping from each nonterminal to its ordered
list of productions. -/
def GRAMMAR : List (GSym × List (List GSym)) :=
  [ ("<expr6>".toList,
      [["<int6>".toList], ["<bin_expr6>".toList], ["<tri_expr6>".toList]]),
    ("<op>".toList, [["<addmul_op>".toList], ["<div_op>".toList]]),
    ("<addmul_op>".toList, [[['+']], [['-']], [['*']]]),
    ("<div_op>".toList, [[['/']]]),
    ("<bin_expr6>".toList,
      [["<int1>".toList, "<op>".toList, "<int4>".toList],
       ["<int2>".toList, "<op>".toList, "<int3>".toList],
       ["<int3>".toList, "<op>".toList, "<int2>".toList],
       ["<int4>".toList, "<addmul_op>".toList, "<int1>".toList],
       ["<int4>".toList, "<div_op>".toList, "<nz_int1>".toList]]),
    ("<tri_expr6>".toList,
      [["<tri_expr6_112>".toList], ["<tri_expr6_121>".toList],
       ["<tri_expr6_211>".toList]]),
    ("<tri_expr6_112>".toList,
      [["<int1>".toList, "<addmul_op>".toList, "<int1>".toList, "<op>".toList,
        "<int2>".toList],
       ["<int1>".toList, "<div_op>".toList, "<nz_int1>".toList, "<op>".toList,
        "<int2>".toList]]),
    ("<tri_expr6_121>".toList,
      [["<int1>".toList, "<op>".toList, "<int2>".toList, "<addmul_op>".toList,
        "<int1>".toList],
       ["<int1>".toList, "<op>".toList, "<int2>".toList, "<div_op>".toList,
        "<nz_int1>".toList]]),
    ("<tri_expr6_211>".toList,
      [["<int2>".toList, "<addmul_op>".toList, "<int1>".toList,
        "<addmul_op>".toList, "<int1>".toList],
       ["<int2>".toList, "<div_op>".toList, "<nz_int1>".toList,
        "<addmul_op>".toList, "<int1>".toList],
       ["<int2>".toList, "<addmul_op>".toList, "<int1>".toList,
        "<div_op>".toList, "<nz_int1>".toList],
       ["<int2>".toList, "<div_op>".toList, "<nz_int1>".toList,
        "<div_op>".toList, "<nz_int1>".toList]]),
    ("<digit>".toList, [[['0']], ["<nonzero_digit>".toList]]),
    ("<nonzero_digit>".toList,
      [[['1']], [['2']], [['3']], [['4']], [['5']], [['6']], [['7']], [['8']],
       [['9']]]),
    ("<int1>".toList, [[['0']], ["<nonzero_digit>".toList]]),
    ("<nz_int1>".toList, [["<nonzero_digit>".toList]]),
    ("<int2>".toList,
      [["<nonzero_digit>".toList, "<digit>".toList],
       [['-'], "<nonzero_digit>".toList]]),
    ("<int3>".toList,
      [["<nonzero_digit>".toList, "<digit>".toList, "<digit>".toList],
       [['-'], "<nonzero_digit>".toList, "<digit>".toList]]),
    ("<int4>".toList,
      [["<nonzero_digit>".toList, "<digit>".toList, "<digit>".toList,
        "<digit>".toList],
       [['-'], "<nonzero_digit>".toList, "<digit>".toList, "<digit>".toList]]),
    ("<int6>".toList,
      [["<nonzero_digit>".toList, "<digit>".toList, "<digit>".toList,
        "<digit>".toList, "<digit>".toList, "<digit>".toList],
       [['-'], "<nonzero_digit>".toList, "<digit>".toList, "<digit>".toList,
        "<digit>".toList, "<digit>".toList]]) ]

/-- Python `GRAMMAR.get(sym)` with a missing key giving the empty list. -/
def grammarLookup (s : GSym) : List (List GSym) :=
  ((GRAMMAR.find? (fun p => p.1 = s)).map Prod.snd).getD []

/-- Locate the leftmost nonterminal: the all-terminal prefix, the nonterminal
itself, and the suffix. -/
def splitFirstNT : List GSym → Option (List GSym × GSym × List GSym)
  | [] => none
  | s :: rest =>
      if is_nonterminal s then some ([], s, rest)
      else
        match splitFirstNT rest with
        | none => none
        | some (pre, n, suf) => some (s :: pre, n, suf)

/-- The decoding loop of grammar/decoder.py `decode_genome_to_expr`:
repeatedly expand the leftmost nonterminal, consuming codons with wrap-around.
`fuel` is the remaining expansion budget `max_expansions - expansions`, so
running out of fuel with a nonterminal left is exactly the Python loop's
`expansions >= max_expansions` failure. -/
def decodeAux (g : List ℕ) : ℕ → List GSym → ℕ → Option (List GSym)
  | fuel, symbols, codonIdx =>
      match splitFirstNT symbols with
      | none => some symbols
      | some (pre, n, suf) =>
          match fuel with
          | 0 => none
          | fuel + 1 =>
              let prods := grammarLookup n
              if prods.length = 0 then none
              else
                let codon := g.getD (codonIdx % g.length) 0
                let expansion := prods.getD (codon % prods.length) []
                decodeAux g fuel (pre ++ expansion ++ suf) (codonIdx + 1)

/-- grammar/decoder.py `decode_genome_to_expr`; `none` models `MappingError`. -/
def decode_genome_to_expr (genome : List ℕ) (max_expansions : ℕ := 100) :
    Option (List Char) :=
  if genome.length = 0 then none
  else
    match decodeAux genome max_expansions [START_SYMBOL] 0 with
    | none => none
    | some symbols =>
        let expr := symbols.flatten
        if expr.length = 6 then some expr else none

/-! ### Encoder: grammar/encoder.py

A backtracking recursive-descent parser recovers the leftmost derivation of a
phenotype; Python's recursion is modelled with a per-level fuel that exceeds
the fixed grammar's maximum derivation depth. -/

/-- Sequential part of grammar/encoder.py `_parse_symbol`: parse the symbols
of one production left to right, threading the position and concatenating the
recorded (nonterminal, production index) choices. -/
def parseSeqWith (ps : GSym → ℕ → Option (ℕ × List (GSym × ℕ))) :
    List GSym → ℕ → Option (ℕ × List (GSym × ℕ))
  | [], pos => some (pos, [])
  | s :: ss, pos =>
      match ps s pos with
      | none => none
      | some (pos1, ch1) =>
          match parseSeqWith ps ss pos1 with
          | none => none
          | some (pos2, ch2) => some (pos2, ch1 ++ ch2)

/-- Backtracking part of grammar/encoder.py `_parse_symbol`: try each
production in declared order, recording the index of the first that parses. -/
def tryProdsWith (ps : GSym → ℕ → Option (ℕ × List (GSym × ℕ))) (sym : GSym) :
    List (List GSym) → ℕ → ℕ → Option (ℕ × List (GSym × ℕ))
  | [], _, _ => none
  | prod :: rest, k, pos =>
      match parseSeqWith ps prod pos with
      | some (pos2, chs) => some (pos2, (sym, k) :: chs)
      | none => tryProdsWith ps sym rest (k + 1) pos

/-- grammar/encoder.py `_parse_symbol`. -/
def parseSymbol (expr : List Char) : ℕ → GSym → ℕ → Option (ℕ × List (GSym × ℕ))
  | 0, _, _ => none
  | f + 1, sym, pos =>
      if is_nonterminal sym then
        let prods := grammarLookup sym
        if prods.length = 0 then none
        else tryProdsWith (fun s p => parseSymbol expr f s p) sym prods 0 pos
      else
        if h : pos < expr.length then
          if sym = [expr.get ⟨pos, h⟩] then some (pos + 1, []) else none
        else none

/-- Recursion budget for `parseSymbol`, larger than the maximum derivation
depth of the fixed grammar. -/
def PARSE_FUEL : ℕ := 30

/-- The tiling loop of grammar/encoder.py `encode_expr_to_genome`: repeat the
recorded codons until `target` codons have been produced.  Each iteration of
the Python `while` loop adds at least one codon, so a fuel of `target`
iterations is enough; the loop guard itself is unchanged. -/
def tileAux (codons : List ℕ) : ℕ → List ℕ → ℕ → List ℕ
  | 0, acc, _ => acc
  | f + 1, acc, target =>
      if acc.length < target ∧ codons ≠ [] then
        tileAux codons f (acc ++ codons.take (target - acc.length)) target
      else acc

/-- grammar/encoder.py `encode_expr_to_genome`; `none` models
`EncodingError` (and the `ExpressionError` its `safe_eval_expression`
sanity check can raise). -/
def encode_expr_to_genome (expr : List Char) (genome_length : ℕ := 20) :
    Option (List ℕ) :=
  if expr.length ≠ 6 then none
  else if expr.any (fun c => ¬ (c ∈ TERMINALS)) then none
  else if (safe_eval_expression expr).isNone then none
  else
    match parseSymbol expr PARSE_FUEL START_SYMBOL 0 with
    | none => none
    | some (end_pos, choices) =>
        if end_pos ≠ expr.length then none
        else if ¬ (choices.all (fun c => c.2 < (grammarLookup c.1).length)) then
          none
        else
          let codons := choices.map Prod.snd
          if codons = [] then none
          else if genome_length ≤ codons.length then
            some (codons.take genome_length)
          else some (tileAux codons genome_length [] genome_length)

/-! ### Fitness evaluator: fitness/constraints.py, fitness/fitness_functions.py -/

/-- config.py `FitnessConfig`.  The last three fields are read by
`score_expression` but set on the dataclass instance by its callers (for
example autotune/autotuner.py), not declared in config.py. -/
structure FitnessConfig where
  error_tolerance : ℚ
  value_weight : ℚ
  green_bonus : ℚ
  low_gray_bonus : ℚ
  diversity_bonus_per_symbol : ℚ
  diversity_min_symbols : ℕ
  wrong_value_penalty : ℚ
  history_incopatibility_penalty : ℚ
  repeat_guess_penalty : ℚ

/-- fitness/constraints.py `get_forbidden_symbols`: every symbol ever marked
GRAY in a valid guess (a Python set; modelled as a list queried for
membership). -/
def get_forbidden_symbols (history : List GuessResult) : List Char :=
  history.foldl
    (fun acc res =>
      if res.is_valid then
        acc ++ (res.guess.zip res.feedback).filterMap
          (fun p => if p.2 = GRAY then some p.1 else none)
      else acc)
    []

/-- Python dict assignment `known[i] = guess[i]`: overwrite an existing key
in place, otherwise append. -/
def updateAssoc (m : List (ℕ × Char)) (k : ℕ) (v : Char) : List (ℕ × Char) :=
  if m.any (fun p => p.1 = k) then
    m.map (fun p => if p.1 = k then (k, v) else p)
  else m ++ [(k, v)]

/-- fitness/constraints.py `get_known_green_positions`. -/
def get_known_green_positions (history : List GuessResult) : List (ℕ × Char) :=
  history.foldl
    (fun acc res =>
      if res.is_valid then
        (res.guess.zip res.feedback).enum.foldl
          (fun m p => if p.2.2 = GREEN then updateAssoc m p.1 p.2.1 else m) acc
      else acc)
    []

/-- fitness/constraints.py `is_expr_compatible_with_history`: simulate
feedback as if `expr` were the secret and compare with the recorded feedback
of every valid guess.  (`compute_feedback`'s length mismatch, which raises in
Python but is unreachable for fixed-width phenotypes, is modelled as
incompatible.) -/
def is_expr_compatible_with_history (expr : List Char)
    (history : List GuessResult) : Bool :=
  history.all
    (fun res =>
      if res.is_valid then
        match compute_feedback res.guess expr with
        | none => false
        | some simulated => simulated = res.feedback
      else true)

/-- Steps 1-7 of fitness/fitness_functions.py `score_expression`: evaluation,
the tolerance gate, and the additive terms other than the step-8 repeat-guess
penalty (factored out so the penalty's effect can be stated on its own). -/
def score_base (expr : List Char) (target_value : ℚ)
    (history : List GuessResult) (cfg : FitnessConfig) : WithBot ℚ :=
  match safe_eval_expression expr with
  | none => ⊥
  | some value =>
      let diff := |value - target_value|
      if 0 < diff ∧ cfg.error_tolerance < diff then ⊥
      else
        let s0 : ℚ := if 0 < diff then 0 - cfg.wrong_value_penalty else 0
        let forbidden := get_forbidden_symbols history
        let num_gray_used := (expr.filter (fun c => c ∈ forbidden)).length
        let s1 :=
          if num_gray_used < 3 then s0 + cfg.low_gray_bonus
          else s0 - (num_gray_used : ℚ) * (cfg.low_gray_bonus / 2)
        let greens := get_known_green_positions history
        let goodGreens := greens.filter
          (fun p => p.1 < expr.length ∧ expr.getD p.1 '?' = p.2)
        let s2 := s1 + (goodGreens.length : ℚ) * cfg.green_bonus
        let unique_symbols := (expr.dedup.filter (fun c => ¬ (c ∈ forbidden))).length
        let s3 := s2 + (unique_symbols : ℚ) * cfg.diversity_bonus_per_symbol
        let s4 :=
          if is_expr_compatible_with_history expr history then s3
          else s3 - cfg.history_incopatibility_penalty
        (s4 : WithBot ℚ)

/-- fitness/fitness_functions.py `score_expression`: the base terms, then one
repeat-guess penalty per prior guess (valid or not) equal to the candidate. -/
def score_expression (expr : List Char) (target_value : ℚ)
    (history : List GuessResult) (cfg : FitnessConfig) : WithBot ℚ :=
  (score_base expr target_value history cfg).map
    (fun b =>
      b - (history.countP (fun r => r.guess = expr) : ℚ) * cfg.repeat_guess_penalty)

/-! ### Evolutionary operators: evolution/, fitness/constraints.py -/

/-- config.py `EvolutionConfig`.  `min_char_index` is read by
`hard_mutate_genome` but set on the instance by callers, not declared in
config.py. -/
structure EvolutionConfig where
  pop_size : ℕ
  genome_length : ℕ
  generations_per_guess : ℕ
  tournament_size : ℕ
  crossover_rate : ℚ
  mutation_rate : ℚ
  elite_fraction : ℚ
  mid_fraction : ℚ
  min_char_index : ℕ

/-- Explicit random stream: `floats` models successive `random.random()`
draws, `nats` the raw draws behind `random.randint` / `random.sample`, with
`fi` / `ni` the next unread positions. -/
structure RState where
  floats : ℕ → ℚ
  nats : ℕ → ℕ
  fi : ℕ := 0
  ni : ℕ := 0

/-- One `random.random()` draw. -/
def randFloat (r : RState) : ℚ × RState :=
  (r.floats r.fi, { r with fi := r.fi + 1 })

/-- One `random.randint(a, b)` draw (inclusive bounds; callers satisfy
`a ≤ b`). -/
def randint (a b : ℕ) (r : RState) : ℕ × RState :=
  (a + r.nats r.ni % (b + 1 - a), { r with ni := r.ni + 1 })

/-- evolution/genome.py `Individual` (fresh individuals default to
`expr=None`, `fitness=-inf`). -/
structure Individual where
  genome : List ℕ
  expr : Option (List Char) := none
  fitness : WithBot ℚ := ⊥
deriving DecidableEq, Inhabited

/-- evolution/genome.py `create_random_genome`. -/
def create_random_genome (codon_min codon_max : ℕ) :
    ℕ → RState → List ℕ × RState
  | 0, r => ([], r)
  | n + 1, r =>
      let p := randint codon_min codon_max r
      let q := create_random_genome codon_min codon_max n p.2
      (p.1 :: q.1, q.2)

/-- evolution/genome.py `init_population`. -/
def init_population (genome_length : ℕ) : ℕ → RState → List Individual × RState
  | 0, r => ([], r)
  | n + 1, r =>
      let p := create_random_genome 0 255 genome_length r
      let q := init_population genome_length n p.2
      ({ genome := p.1 } :: q.1, q.2)

/-- Per-gene loop of evolution/mutation.py `mutate_genome`. -/
def mutateAux (rate : ℚ) : List ℕ → RState → List ℕ × RState
  | [], r => ([], r)
  | c :: cs, r =>
      let f := randFloat r
      if f.1 < rate then
        let v := randint 0 255 f.2
        let rest := mutateAux rate cs v.2
        (v.1 :: rest.1, rest.2)
      else
        let rest := mutateAux rate cs f.2
        (c :: rest.1, rest.2)

/-- evolution/mutation.py `mutate_genome`. -/
def mutate_genome (genome : List ℕ) (cfg : EvolutionConfig) (r : RState) :
    List ℕ × RState :=
  if cfg.mutation_rate ≤ 0 then (genome, r)
  else mutateAux cfg.mutation_rate genome r

/-- evolution/mutation.py `hard_mutate_genome`: bump one codon by one,
biased toward the structural region `[0, min_char_index)` with probability
`2 * mutation_rate`. -/
def hard_mutate_genome (genome : List ℕ) (cfg : EvolutionConfig) (r : RState) :
    List ℕ × RState :=
  let f := randFloat r
  let p :=
    if f.1 < 2 * cfg.mutation_rate then randint 0 (cfg.min_char_index - 1) f.2
    else randint cfg.min_char_index (genome.length - 1) f.2
  (genome.set p.1 (genome.getD p.1 0 + 1), p.2)

/-- evolution/crossover.py `one_point_crossover`; `none` models the
`ValueError` on mismatched parent lengths.  With a short genome the random
draw is not consumed (Python's short-circuit `or`). -/
def one_point_crossover (g1 g2 : List ℕ) (cfg : EvolutionConfig) (r : RState) :
    Option ((List ℕ × List ℕ) × RState) :=
  if g1.length ≠ g2.length then none
  else if g1.length < 2 then some ((g1, g2), r)
  else
    let f := randFloat r
    if cfg.crossover_rate < f.1 then some ((g1, g2), f.2)
    else
      let p := randint 1 (g1.length - 1) f.2
      some ((g1.take p.1 ++ g2.drop p.1, g2.take p.1 ++ g1.drop p.1), p.2)

/-- evolution/selection.py `sort_by_fitness`: stable descending sort (Python
`sorted(..., reverse=True)`). -/
def sort_by_fitness (pop : List Individual) : List Individual :=
  pop.mergeSort (fun a b => decide (b.fitness ≤ a.fitness))

/-- Python `int()` truncates toward zero. -/
def pyInt (q : ℚ) : ℤ :=
  if 0 ≤ q then ⌊q⌋ else ⌈q⌉

/-- The 50% filter over the mid band of evolution/selection.py
`select_survivors`. -/
def midsFilter : List Individual → RState → List Individual × RState
  | [], r => ([], r)
  | ind :: rest, r =>
      let f := randFloat r
      let p := midsFilter rest f.2
      if f.1 < 1 / 2 then (ind :: p.1, p.2) else p

/-- evolution/selection.py `select_survivors`. -/
def select_survivors (pop : List Individual) (cfg : EvolutionConfig)
    (r : RState) : List Individual × RState :=
  if pop = [] then ([], r)
  else
    let pop_sorted := sort_by_fitness pop
    let n := pop.length
    let n_elite := max 1 (pyInt (cfg.elite_fraction * n)).toNat
    let n_mid := (pyInt (cfg.mid_fraction * n)).toNat
    let elites := pop_sorted.take n_elite
    let mids := (pop_sorted.drop n_elite).take n_mid
    let p := midsFilter mids r
    let survivors := elites ++ p.1
    if survivors = [] then ([pop_sorted.headI], p.2) else (survivors, p.2)

/-- `random.sample(l, k)`: k distinct draws, modelled by repeatedly removing
a stream-chosen element. -/
def sampleK : List Individual → ℕ → RState → List Individual × RState
  | _, 0, r => ([], r)
  | [], _ + 1, r => ([], r)
  | x :: xs, k + 1, r =>
      let l := x :: xs
      let i := r.nats r.ni % l.length
      let rest := sampleK (l.eraseIdx i) k { r with ni := r.ni + 1 }
      (l.getD i x :: rest.1, rest.2)

/-- evolution/selection.py `tournament_select`; `none` models the
`ValueError` on an empty pool (and Python's `max` on an empty sample).
Python's `max` keeps the first of equally fit candidates. -/
def tournament_select (pop : List Individual) (k : ℕ) (r : RState) :
    Option (Individual × RState) :=
  if pop = [] then none
  else
    let p := sampleK pop (min k pop.length) r
    match p.1 with
    | [] => none
    | c :: cs =>
        some (cs.foldl (fun best x => if best.fitness < x.fitness then x else best) c,
          p.2)

/-- Scan of fitness/constraints.py `enforce_uniqueness`: the first individual
carrying each phenotype is kept as is, later carriers of a seen phenotype get
their genome force-mutated (their cached `expr`/`fitness` are left stale). -/
def enforceAux (cfg : EvolutionConfig) :
    List Individual → List (Option (List Char)) → RState →
      List Individual × RState
  | [], _, r => ([], r)
  | ind :: rest, seen, r =>
      if ind.expr ∈ seen then
        let g2 := hard_mutate_genome ind.genome cfg r
        let tail := enforceAux cfg rest seen g2.2
        ({ ind with genome := g2.1 } :: tail.1, tail.2)
      else
        let tail := enforceAux cfg rest (ind.expr :: seen) r
        (ind :: tail.1, tail.2)

/-- fitness/constraints.py `enforce_uniqueness`. -/
def enforce_uniqueness (population : List Individual) (cfg : EvolutionConfig)
    (r : RState) : List Individual × RState :=
  enforceAux cfg population [] r

/-! ### Generation loop: evolution/evolution_loop.py -/

/-- The per-individual effect of the `eval_fn` built by
fitness/mathler_eval.py `make_eval_population_mathler`: decode the genome and
score the phenotype, or mark an unmappable genome `(None, -inf)`. -/
def make_eval_population_mathler (target_value : ℚ)
    (history : List GuessResult) (cfg : FitnessConfig) :
    List ℕ → Option (List Char) × WithBot ℚ :=
  fun genome =>
    match decode_genome_to_expr genome with
    | none => (none, ⊥)
    | some expr => (some expr, score_expression expr target_value history cfg)

/-- Apply an `eval_fn` (any per-genome evaluator of
`make_eval_population_mathler`'s shape) to every individual. -/
def evalPop (evalOne : List ℕ → Option (List Char) × WithBot ℚ)
    (pop : List Individual) : List Individual :=
  pop.map (fun ind =>
    let p := evalOne ind.genome
    { ind with expr := p.1, fitness := p.2 })

/-- Child admission of evolution/evolution_loop.py `run_generation`: skip
when full; a duplicate genome gets one extra mutation and is dropped if
still a duplicate.  The accumulator carries the new population and the set
of genomes already added. -/
def addChild (psize : ℕ) (cfg : EvolutionConfig) (child : List ℕ)
    (acc : List Individual × List (List ℕ)) (r : RState) :
    (List Individual × List (List ℕ)) × RState :=
  if psize ≤ acc.1.length then (acc, r)
  else if child ∈ acc.2 then
    let m := mutate_genome child cfg r
    if m.1 ∈ acc.2 then (acc, m.2)
    else ((acc.1 ++ [{ genome := m.1 }], acc.2 ++ [m.1]), m.2)
  else ((acc.1 ++ [{ genome := child }], acc.2 ++ [child]), r)

/-- The breeding `while` loop of `run_generation`.  The Python loop has no
iteration bound, so the model carries an explicit fuel; `none` reports
exhaustion (or a raised exception). -/
def breedLoop (cfg : EvolutionConfig) (survivors : List Individual)
    (psize : ℕ) : ℕ → (List Individual × List (List ℕ)) → RState →
      Option (List Individual × RState)
  | 0, _, _ => none
  | fuel + 1, acc, r =>
      if psize ≤ acc.1.length then some (acc.1, r)
      else
        match tournament_select survivors cfg.tournament_size r with
        | none => none
        | some (p1, r1) =>
            match tournament_select survivors cfg.tournament_size r1 with
            | none => none
            | some (p2, r2) =>
                match one_point_crossover p1.genome p2.genome cfg r2 with
                | none => none
                | some (gs, r3) =>
                    let m1 := mutate_genome gs.1 cfg r3
                    let m2 := mutate_genome gs.2 cfg m1.2
                    let a1 := addChild psize cfg m1.1 acc m2.2
                    let a2 := addChild psize cfg m2.1 a1.1 a1.2
                    breedLoop cfg survivors psize fuel a2.1 a2.2

/-- evolution/evolution_loop.py `run_generation`: evaluate, de-duplicate,
re-evaluate, select survivors, copy de-duplicated elites, breed to size.
The fitness statistics and the optional metrics observer do not affect the
returned population and are omitted (the observer is a no-op).  `none`
models a raised exception or an unterminated breeding loop. -/
def run_generation (population : List Individual) (cfg : EvolutionConfig)
    (evalOne : List ℕ → Option (List Char) × WithBot ℚ) (fuel : ℕ)
    (r : RState) : Option (List Individual × RState) :=
  if population = [] then none
  else
    let pop1 := evalPop evalOne population
    let p2 := enforce_uniqueness pop1 cfg r
    let pop3 := evalPop evalOne p2.1
    let sv := select_survivors pop3 cfg p2.2
    let psize := pop3.length
    let elites := (sort_by_fitness sv.1).take
        (max 1 (pyInt (cfg.elite_fraction * psize)).toNat)
    let start := elites.foldl
        (fun acc ind =>
          if ind.genome ∈ acc.2 then acc
          else (acc.1 ++ [{ genome := ind.genome }], acc.2 ++ [ind.genome]))
        ([], [])
    breedLoop cfg sv.1 psize fuel start sv.2

/-! ### Round-trip machinery

Predicates relating a parse of the encoder (which records, left to right, the
production index chosen at each nonterminal) to the decoder's leftmost
expansion loop.  They are stated over the file's `parseSymbol` / `decodeAux`
and used only in the round-trip proof. -/

/-- Each character of a phenotype as a singleton terminal symbol. -/
def termsOf (cs : List Char) : List GSym :=
  cs.map (fun c => [c])

/-- Every symbol of the list is a terminal. -/
def allT (l : List GSym) : Prop :=
  ∀ s ∈ l, is_nonterminal s = false

/-- Reading the genome with wrap-around from position `idx` yields exactly the
production indices recorded by the parse, in order. -/
def Consumes (g : List ℕ) (idx : ℕ) (chs : List (GSym × ℕ)) : Prop :=
  ∀ j, j < chs.length →
    g.getD ((idx + j) % g.length) 0 = (chs.getD j ([], 0)).2

/-- A successful parse of one symbol over `expr[pos..pos2)` recording `chs`
drives the decoder: expanding that symbol (leftmost, with the recorded codons
supplied by the genome) replaces it by the parsed characters, consuming
`chs.length` codons and as much fuel. -/
def SymStep (expr : List Char) (sym : GSym) (pos pos2 : ℕ)
    (chs : List (GSym × ℕ)) : Prop :=
  pos ≤ pos2 ∧
  ∀ (g : List ℕ) (fuel : ℕ) (done rest : List GSym) (idx : ℕ),
    allT done → chs.length ≤ fuel → Consumes g idx chs →
    decodeAux g fuel (done ++ [sym] ++ rest) idx =
      decodeAux g (fuel - chs.length)
        (done ++ termsOf ((expr.drop pos).take (pos2 - pos)) ++ rest)
        (idx + chs.length)

/-- `SymStep` for every successful parse under the symbol parser `ps`. -/
def SymOK (expr : List Char) (ps : GSym → ℕ → Option (ℕ × List (GSym × ℕ))) :
    Prop :=
  ∀ sym pos pos2 chs, ps sym pos = some (pos2, chs) →
    SymStep expr sym pos pos2 chs

/-- An upper bound on the number of choices any parse of a symbol can record:
one per expanded nonterminal along a maximal derivation of the fixed grammar
(terminals and unknown symbols record none). -/
def maxChoices (s : GSym) : ℕ :=
  if s = "<nonzero_digit>".toList then 1
  else if s = "<digit>".toList then 2
  else if s = "<int1>".toList then 2
  else if s = "<nz_int1>".toList then 2
  else if s = "<addmul_op>".toList then 1
  else if s = "<div_op>".toList then 1
  else if s = "<op>".toList then 2
  else if s = "<int2>".toList then 4
  else if s = "<int3>".toList then 6
  else if s = "<int4>".toList then 8
  else if s = "<int6>".toList then 12
  else if s = "<bin_expr6>".toList then 13
  else if s = "<tri_expr6_112>".toList then 12
  else if s = "<tri_expr6_121>".toList then 12
  else if s = "<tri_expr6_211>".toList then 11
  else if s = "<tri_expr6>".toList then 13
  else if s = "<expr6>".toList then 14
  else 0

/-- Concrete round-trip data: the choices `parseSymbol` records for the
phenotype `1+2345` (one per expanded nonterminal of its leftmost
derivation). -/
def rtChoices : List (GSym × ℕ) :=
  [ ("<expr6>".toList, 1), ("<bin_expr6>".toList, 0),
    ("<int1>".toList, 1), ("<nonzero_digit>".toList, 0),
    ("<op>".toList, 0), ("<addmul_op>".toList, 0),
    ("<int4>".toList, 0), ("<nonzero_digit>".toList, 1),
    ("<digit>".toList, 1), ("<nonzero_digit>".toList, 2),
    ("<digit>".toList, 1), ("<nonzero_digit>".toList, 3),
    ("<digit>".toList, 1), ("<nonzero_digit>".toList, 4) ]

/-- Concrete round-trip data: the genome the encoder produces for `1+2345`
at target length 20 (14 recorded codons, tiled up to 20). -/
def rtGenome : List ℕ :=
  [1, 0, 1, 0, 0, 0, 0, 1, 1, 2, 1, 3, 1, 4, 1, 0, 1, 0, 0, 0]

/-! ## Theorems -/

theorem fbCore_length (secret : List Char) :
    ∀ g s : List Char, (fbCore secret g s).length = min g.length s.length := by
  intro g
  induction g with
  | nil => intro s; cases s <;> simp [fbCore]
  | cons c cs ih =>
      intro s
      cases s with
      | nil => simp [fbCore]
      | cons d ds =>
          simp [fbCore, ih ds]
          omega

theorem fbCore_getD (secret : List Char) :
    ∀ (g s : List Char) (i : ℕ), i < g.length → i < s.length →
      (fbCore secret g s).getD i GRAY =
        (if g.getD i ' ' = s.getD i ' ' then GREEN
         else if g.getD i ' ' ∈ secret then YELLOW else GRAY) := by
  intro g
  induction g with
  | nil => intro s i hi _; simp at hi
  | cons c cs ih =>
      intro s i hi hs
      cases s with
      | nil => simp at hs
      | cons d ds =>
          cases i with
          | zero => simp [fbCore]
          | succ j =>
              simp only [fbCore, List.getD_cons_succ]
              exact ih ds j (by simpa using hi) (by simpa using hs)

theorem fbCore_self_green (secret : List Char) :
    ∀ g : List Char, ∀ t ∈ fbCore secret g g, t = GREEN := by
  intro g
  induction g with
  | nil => simp [fbCore]
  | cons c cs ih => simpa [fbCore] using ih

theorem fbCore_disjoint_gray (secret : List Char) :
    ∀ g s : List Char, (∀ c ∈ g, c ∉ secret) → (∀ c ∈ s, c ∈ secret) →
      ∀ t ∈ fbCore secret g s, t = GRAY := by
  intro g
  induction g with
  | nil => intro s _ _; cases s <;> simp [fbCore]
  | cons c cs ih =>
      intro s hg hs
      cases s with
      | nil => simp [fbCore]
      | cons d ds =>
          have hcd : c ≠ d := by
            intro e
            exact hg c (by simp) (e ▸ hs d (by simp))
          have hcsec : c ∉ secret := hg c (by simp)
          intro t ht
          simp only [fbCore, hcd, if_false, hcsec, List.mem_cons] at ht
          rcases ht with rfl | ht
          · rfl
          · exact ih ds (fun x hx => hg x (by simp [hx]))
              (fun x hx => hs x (by simp [hx])) t ht

/-- C5: `compute_feedback` marks position i GREEN iff the characters agree,
else YELLOW iff the guessed character occurs anywhere in the secret, else
GRAY; feedback of a string against itself is all GREEN, and feedback of
character-disjoint strings is all GRAY. -/
theorem compute_feedback_spec (guess secret : List Char)
    (h : guess.length = secret.length) :
    ∃ fb, compute_feedback guess secret = some fb ∧
      fb.length = guess.length ∧
      (∀ i, i < guess.length →
        (fb.getD i GRAY = GREEN ↔ guess.getD i ' ' = secret.getD i ' ') ∧
        (fb.getD i GRAY = YELLOW ↔
          guess.getD i ' ' ≠ secret.getD i ' ' ∧ guess.getD i ' ' ∈ secret) ∧
        (fb.getD i GRAY = GRAY ↔ ¬ guess.getD i ' ' ∈ secret)) ∧
      (guess = secret → ∀ t ∈ fb, t = GREEN) ∧
      ((∀ c ∈ guess, c ∉ secret) → ∀ t ∈ fb, t = GRAY) := by
  refine ⟨fbCore secret guess secret, by simp [compute_feedback, h], ?_, ?_, ?_, ?_⟩
  · simp [fbCore_length, h]
  · intro i hi
    have hs : i < secret.length := h ▸ hi
    have hget := fbCore_getD secret guess secret i hi hs
    have hsec : secret.getD i ' ' ∈ secret := by
      rw [List.getD_eq_getElem secret ' ' hs]
      exact List.getElem_mem hs
    rw [hget]
    set x := guess.getD i ' ' with hx
    set y := secret.getD i ' ' with hy
    by_cases he : x = y
    · have hxs : x ∈ secret := he ▸ hsec
      simp only [if_pos he]
      exact ⟨by simp [he], by simp [he], by simp [hxs]⟩
    · by_cases hm : x ∈ secret
      · simp only [if_neg he, if_pos hm]
        exact ⟨by simp [he], by simp [he, hm], by simp [hm]⟩
      · simp only [if_neg he, if_neg hm]
        exact ⟨by simp [he], by simp [hm], by simp [hm]⟩
  · intro he
    subst he
    exact fbCore_self_green guess guess
  · intro hd
    exact fbCore_disjoint_gray secret guess secret hd (fun c hc => hc)

/-- Witness for C5 at the concrete secret `2+3*4`. -/
theorem compute_feedback_spec_witness :
    ∃ fb, compute_feedback "2+3*4".toList "2+3*4".toList = some fb ∧
      fb.length = "2+3*4".toList.length ∧
      (∀ i, i < "2+3*4".toList.length →
        (fb.getD i GRAY = GREEN ↔
          "2+3*4".toList.getD i ' ' = "2+3*4".toList.getD i ' ') ∧
        (fb.getD i GRAY = YELLOW ↔
          "2+3*4".toList.getD i ' ' ≠ "2+3*4".toList.getD i ' ' ∧
            "2+3*4".toList.getD i ' ' ∈ "2+3*4".toList) ∧
        (fb.getD i GRAY = GRAY ↔
          ¬ "2+3*4".toList.getD i ' ' ∈ "2+3*4".toList)) ∧
      ("2+3*4".toList = "2+3*4".toList → ∀ t ∈ fb, t = GREEN) ∧
      ((∀ c ∈ "2+3*4".toList, c ∉ "2+3*4".toList) → ∀ t ∈ fb, t = GRAY) :=
  compute_feedback_spec "2+3*4".toList "2+3*4".toList (by decide)

theorem safe_eval_1p2 : safe_eval_expression ['1', '+', '2'] = some 3 := by
  simp +decide [safe_eval_expression, tokenize, tokenizeAux, takeDigits,
    digitsVal, validNumeral, parseAddSub, parseMulDiv, parseUnary,
    parsePowerWith, parseAtom, chainlWith, addOp, mulOp, qpow]
  norm_num

theorem safe_eval_1p1 : safe_eval_expression ['1', '+', '1'] = some 2 := by
  simp +decide [safe_eval_expression, tokenize, tokenizeAux, takeDigits,
    digitsVal, validNumeral, parseAddSub, parseMulDiv, parseUnary,
    parsePowerWith, parseAtom, chainlWith, addOp, mulOp, qpow]
  norm_num

theorem make_guess_history_append (game : MathlerGame) (g : List Char) :
    (make_guess game g).2.history = game.history ++ [(make_guess game g).1] := by
  unfold make_guess
  split
  · rfl
  · split
    · rfl
    · split
      · rfl
      · split
        · rfl
        · rfl

theorem make_guess_preserves (game : MathlerGame) (g : List Char) :
    (make_guess game g).2.secret_expr = game.secret_expr ∧
      (make_guess game g).2.target_value = game.target_value ∧
      (make_guess game g).2.max_guesses = game.max_guesses := by
  unfold make_guess
  split
  · exact ⟨rfl, rfl, rfl⟩
  · split
    · exact ⟨rfl, rfl, rfl⟩
    · split
      · exact ⟨rfl, rfl, rfl⟩
      · split
        · exact ⟨rfl, rfl, rfl⟩
        · exact ⟨rfl, rfl, rfl⟩

/-- C6: `make_guess` is a total function of the game state (no exception
reaches the caller): a wrong-length candidate, a candidate with a character
outside the alphabet, and a candidate whose value differs from the target
each produce an invalid outcome with an error reason and empty feedback, and
in every case exactly one outcome is appended to the history while the rest
of the game state is unchanged. -/
theorem make_guess_spec (game : MathlerGame) (g : List Char) :
    ((make_guess game g).2.history = game.history ++ [(make_guess game g).1] ∧
      (make_guess game g).2.secret_expr = game.secret_expr ∧
      (make_guess game g).2.target_value = game.target_value ∧
      (make_guess game g).2.max_guesses = game.max_guesses) ∧
    (g.length ≠ game.secret_expr.length →
      (make_guess game g).1.is_valid = false ∧
        (make_guess game g).1.error ≠ none ∧
        (make_guess game g).1.feedback = []) ∧
    ((∃ c ∈ g, c ∉ ALLOWED_CHARS) →
      (make_guess game g).1.is_valid = false ∧
        (make_guess game g).1.error ≠ none ∧
        (make_guess game g).1.feedback = []) ∧
    (∀ v, safe_eval_expression g = some v → v ≠ game.target_value →
      (make_guess game g).1.is_valid = false ∧
        (make_guess game g).1.error ≠ none ∧
        (make_guess game g).1.feedback = []) := by
  refine ⟨⟨make_guess_history_append game g, make_guess_preserves game g⟩, ?_, ?_, ?_⟩
  · intro hl
    simp [make_guess, hl]
  · intro hex
    by_cases hl : g.length ≠ game.secret_expr.length
    · simp [make_guess, hl]
    · simp [make_guess, hl, hex]
  · intro v hv hvne
    by_cases hl : g.length ≠ game.secret_expr.length
    · simp [make_guess, hl]
    · by_cases hex : ∃ c ∈ g, c ∉ ALLOWED_CHARS
      · simp [make_guess, hl, hex]
      · simp [make_guess, hl, hex, hv, hvne]

/-- Witness for C6: a too-short guess against the 5-character secret
`2+3*4` is recorded as one invalid outcome with an error and no feedback. -/
theorem make_guess_spec_witness :
    ((make_guess ⟨"2+3*4".toList, 14, 6, []⟩ "2+3".toList).2.history =
        [] ++ [(make_guess ⟨"2+3*4".toList, 14, 6, []⟩ "2+3".toList).1]) ∧
    ((make_guess ⟨"2+3*4".toList, 14, 6, []⟩ "2+3".toList).1.is_valid = false ∧
      (make_guess ⟨"2+3*4".toList, 14, 6, []⟩ "2+3".toList).1.error ≠ none ∧
      (make_guess ⟨"2+3*4".toList, 14, 6, []⟩ "2+3".toList).1.feedback = []) :=
  ⟨(make_guess_spec ⟨"2+3*4".toList, 14, 6, []⟩ "2+3".toList).1.1,
    (make_guess_spec ⟨"2+3*4".toList, 14, 6, []⟩ "2+3".toList).2.1 (by decide)⟩

/-- C8 (amended): the engine never blocks a submission — every `make_guess`
call, in any reachable state (solved or exhausted included), appends exactly
one outcome, so attempts made equals the number of submissions and is not
capped by `max_guesses`; the cap is enforced only by the solver loop, which
submits at most `max_guesses` times. -/
theorem applyGuesses_history_length (game : MathlerGame)
    (gs : List (List Char)) :
    (applyGuesses game gs).history.length = game.history.length + gs.length := by
  induction gs generalizing game with
  | nil => simp [applyGuesses]
  | cons g rest ih =>
      have hrec : applyGuesses game (g :: rest) =
          applyGuesses (make_guess game g).2 rest := rfl
      rw [hrec, ih, make_guess_history_append]
      simp
      omega

/-- Counterexample to C8 as stated: with `max_guesses = 1`, a fresh game on
the secret `1+1` accepts a second submission after exhaustion; the history
then holds 2 outcomes, exceeding `max_guesses`, and the late submission is
even recorded as correct. -/
theorem make_guess_past_exhaustion :
    (applyGuesses ⟨"1+1".toList, 2, 1, []⟩
        ["1+2".toList, "1+1".toList]).history.length = 2 ∧
    (applyGuesses ⟨"1+1".toList, 2, 1, []⟩
        ["1+2".toList, "1+1".toList]).max_guesses = 1 ∧
    is_solved (applyGuesses ⟨"1+1".toList, 2, 1, []⟩
        ["1+2".toList, "1+1".toList]) = true := by
  have h1 : safe_eval_expression ['1', '+', '2'] = some 3 := safe_eval_1p2
  have h2 : safe_eval_expression ['1', '+', '1'] = some 2 := safe_eval_1p1
  refine ⟨?_, ?_, ?_⟩ <;>
    simp +decide [applyGuesses, make_guess, h1, h2, is_solved]

theorem mem_take_of_head (a : Individual) (l : List Individual) (k : ℕ)
    (hk : k ≠ 0) : a ∈ (a :: l).take k := by
  cases k with
  | zero => exact absurd rfl hk
  | succ m => simp [List.take_succ_cons]

/-- C10: for a non-empty population `select_survivors` returns a non-empty
survivor list, and the best-ranked individual (the head of the descending
sort) is always retained, because the elite count is `max 1 ⌊elite_fraction
* N⌋` and the empty-survivor fallback keeps the single best individual. -/
theorem select_survivors_keeps_best (pop : List Individual)
    (cfg : EvolutionConfig) (r : RState) (h : pop ≠ []) :
    (select_survivors pop cfg r).1 ≠ [] ∧
      (sort_by_fitness pop).headI ∈ (select_survivors pop cfg r).1 := by
  have hsl : (sort_by_fitness pop).length = pop.length := by
    simp [sort_by_fitness, List.length_mergeSort]
  cases hs : sort_by_fitness pop with
  | nil =>
      rw [hs] at hsl
      exact absurd (List.length_eq_zero.mp hsl.symm) h
  | cons a rest =>
      unfold select_survivors
      rw [if_neg h, hs]
      dsimp only
      split
      · simp
      · next hcond =>
          refine ⟨hcond, ?_⟩
          simp only [List.headI]
          exact List.mem_append_left _
            (mem_take_of_head a rest _ (by positivity))

/-- Witness for C10 on a one-individual population. -/
theorem select_survivors_keeps_best_witness :
    (select_survivors [{ genome := [0] }]
        ⟨1, 1, 1, 1, 0, 0, 0, 0, 1⟩ ⟨fun _ => 0, fun _ => 0, 0, 0⟩).1 ≠ [] ∧
      (sort_by_fitness [{ genome := [0] }]).headI ∈
        (select_survivors [{ genome := [0] }]
          ⟨1, 1, 1, 1, 0, 0, 0, 0, 1⟩ ⟨fun _ => 0, fun _ => 0, 0, 0⟩).1 :=
  select_survivors_keeps_best [{ genome := [0] }]
    ⟨1, 1, 1, 1, 0, 0, 0, 0, 1⟩ ⟨fun _ => 0, fun _ => 0, 0, 0⟩ (by simp)

theorem randint_le (a b : ℕ) (r : RState) (h : a ≤ b) : (randint a b r).1 ≤ b := by
  have hpos : 0 < b + 1 - a := by omega
  have := Nat.mod_lt (r.nats r.ni) hpos
  simp only [randint]
  omega

theorem create_random_genome_bounds :
    ∀ (n : ℕ) (r : RState), ∀ c ∈ (create_random_genome 0 255 n r).1, c ≤ 255 := by
  intro n
  induction n with
  | zero => intro r c hc; simp [create_random_genome] at hc
  | succ m ih =>
      intro r c hc
      simp only [create_random_genome, List.mem_cons] at hc
      rcases hc with rfl | hc
      · exact randint_le 0 255 r (by omega)
      · exact ih _ c hc

theorem mutateAux_bounds (rate : ℚ) :
    ∀ (g : List ℕ) (r : RState), (∀ c ∈ g, c ≤ 255) →
      ∀ c ∈ (mutateAux rate g r).1, c ≤ 255 := by
  intro g
  induction g with
  | nil => intro r hg c hc; simp [mutateAux] at hc
  | cons x xs ih =>
      intro r hg c hc
      simp only [mutateAux] at hc
      split at hc
      · simp only [List.mem_cons] at hc
        rcases hc with rfl | hc
        · exact randint_le 0 255 _ (by omega)
        · exact ih _ (fun d hd => hg d (by simp [hd])) c hc
      · simp only [List.mem_cons] at hc
        rcases hc with rfl | hc
        · exact hg c (by simp)
        · exact ih _ (fun d hd => hg d (by simp [hd])) c hc

/-- C3 (amended): random initialization, per-gene mutation and crossover all
map genomes with codons in [0,255] to genomes with codons in [0,255]; forced
(de-duplication) mutation bumps one codon by exactly one with no clamp or
wrap, so from codons in [0,255] it only guarantees [0,256] and leaves the
range whenever the selected codon is 255. -/
theorem codon_range_under_operators :
    (∀ (n : ℕ) (r : RState), ∀ c ∈ (create_random_genome 0 255 n r).1, c ≤ 255) ∧
    (∀ (g : List ℕ) (cfg : EvolutionConfig) (r : RState),
      (∀ c ∈ g, c ≤ 255) → ∀ c ∈ (mutate_genome g cfg r).1, c ≤ 255) ∧
    (∀ (g1 g2 : List ℕ) (cfg : EvolutionConfig) (r : RState) out,
      one_point_crossover g1 g2 cfg r = some out →
      (∀ c ∈ g1, c ≤ 255) → (∀ c ∈ g2, c ≤ 255) →
      (∀ c ∈ out.1.1, c ≤ 255) ∧ (∀ c ∈ out.1.2, c ≤ 255)) ∧
    (∀ (g : List ℕ) (cfg : EvolutionConfig) (r : RState),
      (∀ c ∈ g, c ≤ 255) → ∀ c ∈ (hard_mutate_genome g cfg r).1, c ≤ 256) := by
  refine ⟨create_random_genome_bounds, ?_, ?_, ?_⟩
  · intro g cfg r hg c hc
    simp only [mutate_genome] at hc
    split at hc
    · exact hg c hc
    · exact mutateAux_bounds cfg.mutation_rate g r hg c hc
  · intro g1 g2 cfg r out hout h1 h2
    simp only [one_point_crossover] at hout
    split at hout
    · cases hout
    · split at hout
      · cases hout
        exact ⟨h1, h2⟩
      · split at hout
        · cases hout
          exact ⟨h1, h2⟩
        · cases hout
          constructor
          · intro c hc
            rcases List.mem_append.mp hc with hc | hc
            · exact h1 c (List.mem_of_mem_take hc)
            · exact h2 c (List.mem_of_mem_drop hc)
          · intro c hc
            rcases List.mem_append.mp hc with hc | hc
            · exact h2 c (List.mem_of_mem_take hc)
            · exact h1 c (List.mem_of_mem_drop hc)
  · intro g cfg r hg c hc
    simp only [hard_mutate_genome] at hc
    rcases List.mem_or_eq_of_mem_set hc with hc | rfl
    · exact le_trans (hg c hc) (by omega)
    · have hvb : ∀ idx : ℕ, g.getD idx 0 ≤ 255 := by
        intro idx
        by_cases hlt : idx < g.length
        · rw [List.getD_eq_getElem g 0 hlt]
          exact hg _ (List.getElem_mem hlt)
        · rw [List.getD_eq_default g 0 (le_of_not_lt hlt)]
          omega
      exact le_trans (Nat.add_le_add_right (hvb _) 1) (by omega)

/-- Counterexample to C3 as stated: forced mutation on the all-255 genome
produces the codon 256, outside [0,255]. -/
theorem hard_mutate_leaves_range :
    (hard_mutate_genome [255, 255] ⟨2, 2, 1, 1, 0, 0, 0, 0, 1⟩
        ⟨fun _ => 0, fun _ => 0, 0, 0⟩).1 = [255, 256] ∧
    ¬ (∀ c ∈ (hard_mutate_genome [255, 255] ⟨2, 2, 1, 1, 0, 0, 0, 0, 1⟩
        ⟨fun _ => 0, fun _ => 0, 0, 0⟩).1, c ≤ 255) := by
  have h : (hard_mutate_genome [255, 255] ⟨2, 2, 1, 1, 0, 0, 0, 0, 1⟩
      ⟨fun _ => 0, fun _ => 0, 0, 0⟩).1 = [255, 256] := by
    simp [hard_mutate_genome, randFloat, randint]
  refine ⟨h, ?_⟩
  rw [h]
  intro hall
  exact absurd (hall 256 (by simp)) (by omega)

/-- Witness for C3 (amended) at concrete genomes and streams. -/
theorem codon_range_under_operators_witness :
    (∀ c ∈ (create_random_genome 0 255 3 ⟨fun _ => 0, fun _ => 7, 0, 0⟩).1, c ≤ 255) ∧
    (∀ c ∈ (mutate_genome [255, 0] ⟨2, 2, 1, 1, 0, 0, 0, 0, 1⟩
        ⟨fun _ => 0, fun _ => 9, 0, 0⟩).1, c ≤ 255) ∧
    (∀ c ∈ (hard_mutate_genome [7, 8] ⟨2, 2, 1, 1, 0, 0, 0, 0, 1⟩
        ⟨fun _ => 0, fun _ => 0, 0, 0⟩).1, c ≤ 256) :=
  ⟨codon_range_under_operators.1 3 ⟨fun _ => 0, fun _ => 7, 0, 0⟩,
    codon_range_under_operators.2.1 [255, 0] ⟨2, 2, 1, 1, 0, 0, 0, 0, 1⟩
      ⟨fun _ => 0, fun _ => 9, 0, 0⟩ (by decide),
    codon_range_under_operators.2.2.2 [7, 8] ⟨2, 2, 1, 1, 0, 0, 0, 0, 1⟩
      ⟨fun _ => 0, fun _ => 0, 0, 0⟩ (by decide)⟩

theorem safe_eval_1p2345 :
    safe_eval_expression ['1', '+', '2', '3', '4', '5'] = some 2346 := by
  simp +decide [safe_eval_expression, tokenize, tokenizeAux, takeDigits,
    digitsVal, validNumeral, parseAddSub, parseMulDiv, parseUnary,
    parsePowerWith, parseAtom, chainlWith, addOp, mulOp, qpow]
  norm_num

theorem safe_eval_2p1345 :
    safe_eval_expression ['2', '+', '1', '3', '4', '5'] = some 1347 := by
  simp +decide [safe_eval_expression, tokenize, tokenizeAux, takeDigits,
    digitsVal, validNumeral, parseAddSub, parseMulDiv, parseUnary,
    parsePowerWith, parseAtom, chainlWith, addOp, mulOp, qpow]
  norm_num

/-- C4 (amended): for every phenotype that evaluates without error and every
configuration with a non-negative `error_tolerance`, a value farther from the
target than the tolerance scores exactly the Rejected sentinel.  (With a
negative tolerance the code's `diff > 0` guard can skip the rejection; see
the counterexample.) -/
theorem score_rejected_beyond_tolerance (expr : List Char) (target : ℚ)
    (history : List GuessResult) (cfg : FitnessConfig) (v : ℚ)
    (hv : safe_eval_expression expr = some v)
    (htol : 0 ≤ cfg.error_tolerance)
    (hfar : cfg.error_tolerance < |v - target|) :
    score_expression expr target history cfg = ⊥ := by
  have h0 : 0 < |v - target| := lt_of_le_of_lt htol hfar
  simp only [score_expression, score_base, hv]
  rw [if_pos ⟨h0, hfar⟩]
  rfl

/-- Witness for C4 (amended): the value 3 of `1+2` is farther than tolerance
0 from the target 100, so the score is Rejected. -/
theorem score_rejected_beyond_tolerance_witness :
    score_expression ['1', '+', '2'] 100 [] ⟨0, 0, 0, 0, 0, 0, 0, 0, 0⟩ = ⊥ :=
  score_rejected_beyond_tolerance ['1', '+', '2'] 100 []
    ⟨0, 0, 0, 0, 0, 0, 0, 0, 0⟩ 3 safe_eval_1p2 (by norm_num) (by norm_num)

/-- Counterexample to C4 as stated: with the (unconstrained) configuration
value `error_tolerance = -1`, the candidate `1+2` hits the target 3 exactly,
so `|value - target| = 0` exceeds the tolerance, yet the score is a real
score, not the Rejected sentinel: the code only rejects when `diff > 0`. -/
theorem score_not_rejected_negative_tolerance :
    (⟨-1, 0, 0, 0, 0, 0, 0, 0, 0⟩ : FitnessConfig).error_tolerance <
        |(3 : ℚ) - 3| ∧
    score_expression ['1', '+', '2'] 3 [] ⟨-1, 0, 0, 0, 0, 0, 0, 0, 0⟩ ≠ ⊥ := by
  constructor
  · norm_num
  · simp +decide [score_expression, score_base, safe_eval_1p2,
      get_forbidden_symbols, get_known_green_positions,
      is_expr_compatible_with_history]

/-- C9 (amended): with a positive `repeat_guess_penalty`, a candidate equal
to k ≥ 1 prior guesses (valid or not) scores strictly lower than a candidate
with no such repeat whose other score terms (the factored-out `score_base`)
are equal. -/
theorem repeat_guess_scores_strictly_lower (e1 e2 : List Char) (target : ℚ)
    (history : List GuessResult) (cfg : FitnessConfig) (b : ℚ)
    (hb1 : score_base e1 target history cfg = (b : WithBot ℚ))
    (hb2 : score_base e2 target history cfg = (b : WithBot ℚ))
    (hc1 : 1 ≤ history.countP (fun r => r.guess = e1))
    (hc2 : history.countP (fun r => r.guess = e2) = 0)
    (hp : 0 < cfg.repeat_guess_penalty) :
    score_expression e1 target history cfg <
      score_expression e2 target history cfg := by
  simp only [score_expression, hb1, hb2, WithBot.map_coe, hc2]
  rw [WithBot.coe_lt_coe]
  have hcast : (1 : ℚ) ≤ (history.countP (fun r => r.guess = e1) : ℚ) := by
    exact_mod_cast hc1
  have hmul : 1 * cfg.repeat_guess_penalty ≤
      (history.countP (fun r => r.guess = e1) : ℚ) * cfg.repeat_guess_penalty :=
    mul_le_mul_of_nonneg_right hcast hp.le
  push_cast
  linarith

/-- Witness for C9 (amended): against a history holding the (invalid) guess
`1+2345`, the repeat candidate `1+2345` scores strictly below the equal-base
candidate `2+1345`. -/
theorem repeat_guess_scores_strictly_lower_witness :
    score_expression ['1', '+', '2', '3', '4', '5'] 0
        [{ guess := ['1', '+', '2', '3', '4', '5'], feedback := [] }]
        ⟨10000, 0, 0, 0, 0, 0, 0, 0, 5⟩ <
      score_expression ['2', '+', '1', '3', '4', '5'] 0
        [{ guess := ['1', '+', '2', '3', '4', '5'], feedback := [] }]
        ⟨10000, 0, 0, 0, 0, 0, 0, 0, 5⟩ := by
  have hb1 : score_base ['1', '+', '2', '3', '4', '5'] 0
      [{ guess := ['1', '+', '2', '3', '4', '5'], feedback := [] }]
      ⟨10000, 0, 0, 0, 0, 0, 0, 0, 5⟩ = ((0 : ℚ) : WithBot ℚ) := by
    simp +decide [score_base, safe_eval_1p2345, get_forbidden_symbols,
      get_known_green_positions, is_expr_compatible_with_history]
  have hb2 : score_base ['2', '+', '1', '3', '4', '5'] 0
      [{ guess := ['1', '+', '2', '3', '4', '5'], feedback := [] }]
      ⟨10000, 0, 0, 0, 0, 0, 0, 0, 5⟩ = ((0 : ℚ) : WithBot ℚ) := by
    simp +decide [score_base, safe_eval_2p1345, get_forbidden_symbols,
      get_known_green_positions, is_expr_compatible_with_history]
  exact repeat_guess_scores_strictly_lower _ _ _ _ _ 0 hb1 hb2 (by decide)
    (by decide) (by norm_num)

/-- Counterexample to C9 as stated: with the configuration value
`repeat_guess_penalty = 0` the repeat candidate does not score strictly
lower — both candidates score equally although one repeats a prior guess
and the other does not. -/
theorem repeat_guess_zero_penalty_not_strict :
    score_expression ['1', '+', '2', '3', '4', '5'] 0
        [{ guess := ['1', '+', '2', '3', '4', '5'], feedback := [] }]
        ⟨10000, 0, 0, 0, 0, 0, 0, 0, 0⟩ =
      score_expression ['2', '+', '1', '3', '4', '5'] 0
        [{ guess := ['1', '+', '2', '3', '4', '5'], feedback := [] }]
        ⟨10000, 0, 0, 0, 0, 0, 0, 0, 0⟩ ∧
    ([{ guess := ['1', '+', '2', '3', '4', '5'], feedback := [] }] :
        List GuessResult).countP
      (fun r => r.guess = ['1', '+', '2', '3', '4', '5']) = 1 ∧
    ([{ guess := ['1', '+', '2', '3', '4', '5'], feedback := [] }] :
        List GuessResult).countP
      (fun r => r.guess = ['2', '+', '1', '3', '4', '5']) = 0 := by
  refine ⟨?_, by decide, by decide⟩
  have h1 : score_expression ['1', '+', '2', '3', '4', '5'] 0
      [{ guess := ['1', '+', '2', '3', '4', '5'], feedback := [] }]
      ⟨10000, 0, 0, 0, 0, 0, 0, 0, 0⟩ = ((0 : ℚ) : WithBot ℚ) := by
    simp +decide [score_expression, score_base, safe_eval_1p2345,
      get_forbidden_symbols, get_known_green_positions,
      is_expr_compatible_with_history]
  have h2 : score_expression ['2', '+', '1', '3', '4', '5'] 0
      [{ guess := ['1', '+', '2', '3', '4', '5'], feedback := [] }]
      ⟨10000, 0, 0, 0, 0, 0, 0, 0, 0⟩ = ((0 : ℚ) : WithBot ℚ) := by
    simp +decide [score_expression, score_base, safe_eval_2p1345,
      get_forbidden_symbols, get_known_green_positions,
      is_expr_compatible_with_history]
  rw [h1, h2]

/-- Default individual used with `List.getD` in indexed statements. -/
def dfltInd : Individual := { genome := [] }

theorem enforceAux_spec (cfg : EvolutionConfig) :
    ∀ (pop : List Individual) (seen : List (Option (List Char))) (r : RState),
      ((enforceAux cfg pop seen r).1.length = pop.length) ∧
      ((enforceAux cfg pop seen r).1.map Individual.expr =
        pop.map Individual.expr) ∧
      (∀ i, i < pop.length →
        (pop.getD i dfltInd).expr ∉ seen →
        (pop.getD i dfltInd).expr ∉ (pop.take i).map Individual.expr →
        (enforceAux cfg pop seen r).1.getD i dfltInd = pop.getD i dfltInd) := by
  intro pop
  induction pop with
  | nil =>
      intro seen r
      exact ⟨rfl, rfl, fun i hi => absurd hi (by simp)⟩
  | cons ind rest ih =>
      intro seen r
      by_cases hseen : ind.expr ∈ seen
      · have hres : enforceAux cfg (ind :: rest) seen r =
            ({ ind with genome := (hard_mutate_genome ind.genome cfg r).1 } ::
              (enforceAux cfg rest seen
                (hard_mutate_genome ind.genome cfg r).2).1,
              (enforceAux cfg rest seen
                (hard_mutate_genome ind.genome cfg r).2).2) := by
          simp [enforceAux, hseen]
        obtain ⟨ihl, ihm, ihp⟩ :=
          ih seen (hard_mutate_genome ind.genome cfg r).2
        refine ⟨by simp [hres, ihl], by simp [hres, ihm], ?_⟩
        intro i hi hnseen hnpre
        cases i with
        | zero =>
            simp only [List.getD_cons_zero] at hnseen
            exact absurd hseen hnseen
        | succ j =>
            simp only [hres, List.getD_cons_succ]
            simp only [List.getD_cons_succ] at hnseen hnpre
            refine ihp j (by simpa using hi) hnseen ?_
            intro hmem
            refine hnpre ?_
            simp only [List.take_succ_cons, List.map_cons, List.mem_cons]
            exact Or.inr (by simpa [List.map_take] using hmem)
      · have hres : enforceAux cfg (ind :: rest) seen r =
            (ind :: (enforceAux cfg rest (ind.expr :: seen) r).1,
              (enforceAux cfg rest (ind.expr :: seen) r).2) := by
          simp [enforceAux, hseen]
        obtain ⟨ihl, ihm, ihp⟩ := ih (ind.expr :: seen) r
        refine ⟨by simp [hres, ihl], by simp [hres, ihm], ?_⟩
        intro i hi hnseen hnpre
        cases i with
        | zero => simp [hres]
        | succ j =>
            simp only [hres, List.getD_cons_succ]
            simp only [List.getD_cons_succ] at hnseen hnpre
            have hne : (rest.getD j dfltInd).expr ≠ ind.expr := by
              intro he
              refine hnpre ?_
              simp only [List.take_succ_cons, List.map_cons, List.mem_cons]
              exact Or.inl he
            refine ihp j (by simpa using hi)
              (by simp only [List.mem_cons, not_or]; exact ⟨hne, hnseen⟩) ?_
            intro hmem
            refine hnpre ?_
            simp only [List.take_succ_cons, List.map_cons, List.mem_cons]
            exact Or.inr (by simpa [List.map_take] using hmem)

/-- C2 (amended): the de-duplication pass preserves the population's length
and every cached phenotype field, and keeps every individual whose phenotype
does not repeat an earlier one in the scan entirely unchanged; duplicates
only get their genome force-mutated, which does not guarantee distinct
phenotypes (the mutated genome may decode to a phenotype already present
even when the population is no larger than the grammar's language). -/
theorem enforce_uniqueness_spec (pop : List Individual)
    (cfg : EvolutionConfig) (r : RState) :
    ((enforce_uniqueness pop cfg r).1.length = pop.length) ∧
    ((enforce_uniqueness pop cfg r).1.map Individual.expr =
      pop.map Individual.expr) ∧
    (∀ i, i < pop.length →
      (pop.getD i dfltInd).expr ∉ (pop.take i).map Individual.expr →
      (enforce_uniqueness pop cfg r).1.getD i dfltInd = pop.getD i dfltInd) := by
  obtain ⟨hl, hm, hp⟩ := enforceAux_spec cfg pop [] r
  exact ⟨hl, hm, fun i hi hpre => hp i hi (by simp) hpre⟩

/-- Witness for C2 (amended) on a two-individual population with distinct
cached phenotypes. -/
theorem enforce_uniqueness_spec_witness :
    ((enforce_uniqueness
        [{ genome := [0, 0, 0, 0, 0, 0, 0, 0, 0],
           expr := some ['1', '0', '0', '0', '0', '0'] },
         { genome := [1], expr := some ['-', '2', '/', '-', '2', '2'] }]
        ⟨2, 9, 1, 1, 0, 0, 0, 0, 1⟩ ⟨fun _ => 0, fun _ => 7, 0, 0⟩).1.length =
      ([{ genome := [0, 0, 0, 0, 0, 0, 0, 0, 0],
          expr := some ['1', '0', '0', '0', '0', '0'] },
        { genome := [1], expr := some ['-', '2', '/', '-', '2', '2'] }] :
          List Individual).length) ∧
    ((enforce_uniqueness
        [{ genome := [0, 0, 0, 0, 0, 0, 0, 0, 0],
           expr := some ['1', '0', '0', '0', '0', '0'] },
         { genome := [1], expr := some ['-', '2', '/', '-', '2', '2'] }]
        ⟨2, 9, 1, 1, 0, 0, 0, 0, 1⟩
        ⟨fun _ => 0, fun _ => 7, 0, 0⟩).1.getD 1 dfltInd =
      ([{ genome := [0, 0, 0, 0, 0, 0, 0, 0, 0],
          expr := some ['1', '0', '0', '0', '0', '0'] },
        { genome := [1], expr := some ['-', '2', '/', '-', '2', '2'] }] :
          List Individual).getD 1 dfltInd) :=
  ⟨(enforce_uniqueness_spec _ _ _).1,
    (enforce_uniqueness_spec _ _ _).2.2 1 (by decide) (by decide)⟩

/-- Counterexample to C2 as stated: two individuals share the phenotype
`100000`; the pass force-mutates the second's genome, but the mutated genome
still decodes to `100000`, so the returned population still carries two
individuals of one phenotype — although the population (size 2) does not
exceed the grammar's language, which contains at least two distinct
phenotypes (`100000` and the 6-character phenotype decoded from the genome
`[1]`). -/
theorem enforce_uniqueness_duplicate_phenotypes :
    (decode_genome_to_expr
        ((enforce_uniqueness
          [{ genome := [0, 0, 0, 0, 0, 0, 0, 0, 0],
             expr := some ['1', '0', '0', '0', '0', '0'] },
           { genome := [0, 0, 0, 0, 0, 0, 0, 0, 0],
             expr := some ['1', '0', '0', '0', '0', '0'] }]
          ⟨2, 9, 1, 1, 0, 0, 0, 0, 1⟩
          ⟨fun _ => 0, fun _ => 7, 0, 0⟩).1.getD 0 dfltInd).genome =
      some ['1', '0', '0', '0', '0', '0']) ∧
    (decode_genome_to_expr
        ((enforce_uniqueness
          [{ genome := [0, 0, 0, 0, 0, 0, 0, 0, 0],
             expr := some ['1', '0', '0', '0', '0', '0'] },
           { genome := [0, 0, 0, 0, 0, 0, 0, 0, 0],
             expr := some ['1', '0', '0', '0', '0', '0'] }]
          ⟨2, 9, 1, 1, 0, 0, 0, 0, 1⟩
          ⟨fun _ => 0, fun _ => 7, 0, 0⟩).1.getD 1 dfltInd).genome =
      some ['1', '0', '0', '0', '0', '0']) ∧
    (((enforce_uniqueness
          [{ genome := [0, 0, 0, 0, 0, 0, 0, 0, 0],
             expr := some ['1', '0', '0', '0', '0', '0'] },
           { genome := [0, 0, 0, 0, 0, 0, 0, 0, 0],
             expr := some ['1', '0', '0', '0', '0', '0'] }]
          ⟨2, 9, 1, 1, 0, 0, 0, 0, 1⟩
          ⟨fun _ => 0, fun _ => 7, 0, 0⟩).1.getD 1 dfltInd).genome ≠
        (([{ genome := [0, 0, 0, 0, 0, 0, 0, 0, 0],
             expr := some ['1', '0', '0', '0', '0', '0'] },
           { genome := [0, 0, 0, 0, 0, 0, 0, 0, 0],
             expr := some ['1', '0', '0', '0', '0', '0'] }] :
            List Individual).getD 1 dfltInd).genome) ∧
    (decode_genome_to_expr [0, 0, 0, 0, 0, 0, 0, 0, 0] =
      some ['1', '0', '0', '0', '0', '0']) ∧
    (decode_genome_to_expr [1] = some ['-', '2', '/', '-', '2', '2']) := by
  have hres : (enforce_uniqueness
      [{ genome := [0, 0, 0, 0, 0, 0, 0, 0, 0],
         expr := some ['1', '0', '0', '0', '0', '0'] },
       { genome := [0, 0, 0, 0, 0, 0, 0, 0, 0],
         expr := some ['1', '0', '0', '0', '0', '0'] }]
      ⟨2, 9, 1, 1, 0, 0, 0, 0, 1⟩
      ⟨fun _ => 0, fun _ => 7, 0, 0⟩).1 =
      [{ genome := [0, 0, 0, 0, 0, 0, 0, 0, 0],
         expr := some ['1', '0', '0', '0', '0', '0'] },
       { genome := [0, 0, 0, 0, 0, 0, 0, 0, 1],
         expr := some ['1', '0', '0', '0', '0', '0'] }] := by
    simp +decide [enforce_uniqueness, enforceAux, hard_mutate_genome,
      randFloat, randint]
  rw [hres]
  refine ⟨by decide, by decide, by decide, by decide, by decide⟩

theorem midsFilter_length_le :
    ∀ (l : List Individual) (r : RState), (midsFilter l r).1.length ≤ l.length := by
  intro l
  induction l with
  | nil => intro r; simp [midsFilter]
  | cons x xs ih =>
      intro r
      simp only [midsFilter]
      split
      · simp only [List.length_cons]
        exact Nat.succ_le_succ (ih (randFloat r).2)
      · refine le_trans (ih (randFloat r).2) ?_
        simp only [List.length_cons]
        omega

theorem select_survivors_length_le (pop : List Individual)
    (cfg : EvolutionConfig) (r : RState) :
    (select_survivors pop cfg r).1.length ≤ pop.length := by
  by_cases hne : pop = []
  · simp [select_survivors, hne]
  · have hpos : 0 < pop.length := List.length_pos.mpr hne
    have hslen : (sort_by_fitness pop).length = pop.length := by
      simp [sort_by_fitness, List.length_mergeSort]
    unfold select_survivors
    rw [if_neg hne]
    dsimp only
    split
    · simpa using hpos
    · rw [List.length_append]
      have h1 : ((sort_by_fitness pop).take
          (max 1 (pyInt (cfg.elite_fraction * pop.length)).toNat)).length ≤
          min (max 1 (pyInt (cfg.elite_fraction * pop.length)).toNat)
            pop.length := by
        simp [List.length_take, hslen]
      have h2 := midsFilter_length_le
        (((sort_by_fitness pop).drop
            (max 1 (pyInt (cfg.elite_fraction * pop.length)).toNat)).take
          (pyInt (cfg.mid_fraction * pop.length)).toNat) r
      have h3 : (((sort_by_fitness pop).drop
          (max 1 (pyInt (cfg.elite_fraction * pop.length)).toNat)).take
            (pyInt (cfg.mid_fraction * pop.length)).toNat).length ≤
          pop.length -
            max 1 (pyInt (cfg.elite_fraction * pop.length)).toNat := by
        simp [List.length_take, List.length_drop, hslen]
      omega

theorem addChild_length_le (psize : ℕ) (cfg : EvolutionConfig)
    (child : List ℕ) (acc : List Individual × List (List ℕ)) (r : RState)
    (h : acc.1.length ≤ psize) :
    ((addChild psize cfg child acc r).1.1.length ≤ psize) := by
  unfold addChild
  by_cases hfull : psize ≤ acc.1.length
  · rw [if_pos hfull]
    exact h
  · rw [if_neg hfull]
    by_cases hdup : child ∈ acc.2
    · rw [if_pos hdup]
      dsimp only
      by_cases hdup2 : (mutate_genome child cfg r).1 ∈ acc.2
      · rw [if_pos hdup2]
        exact h
      · rw [if_neg hdup2]
        simp only [List.length_append, List.length_cons, List.length_nil]
        omega
    · rw [if_neg hdup]
      simp only [List.length_append, List.length_cons, List.length_nil]
      omega

theorem breedLoop_some_length (cfg : EvolutionConfig)
    (survivors : List Individual) (psize : ℕ) :
    ∀ (fuel : ℕ) (acc : List Individual × List (List ℕ)) (r : RState)
      (out : List Individual × RState),
      acc.1.length ≤ psize →
      breedLoop cfg survivors psize fuel acc r = some out →
      out.1.length = psize := by
  intro fuel
  induction fuel with
  | zero =>
      intro acc r out hle hb
      cases hb
  | succ f ih =>
      intro acc r out hle hb
      unfold breedLoop at hb
      by_cases hfull : psize ≤ acc.1.length
      · rw [if_pos hfull] at hb
        cases hb
        dsimp only
        omega
      · rw [if_neg hfull] at hb
        cases ht1 : tournament_select survivors cfg.tournament_size r with
        | none => rw [ht1] at hb; cases hb
        | some q1 =>
            rw [ht1] at hb
            obtain ⟨p1, r1⟩ := q1
            dsimp only at hb
            cases ht2 : tournament_select survivors cfg.tournament_size r1 with
            | none => rw [ht2] at hb; cases hb
            | some q2 =>
                rw [ht2] at hb
                obtain ⟨p2, r2⟩ := q2
                dsimp only at hb
                cases hx : one_point_crossover p1.genome p2.genome cfg r2 with
                | none => rw [hx] at hb; cases hb
                | some q3 =>
                    rw [hx] at hb
                    obtain ⟨gs, r3⟩ := q3
                    dsimp only at hb
                    refine ih _ _ out ?_ hb
                    exact addChild_length_le _ _ _ _ _
                      (addChild_length_le _ _ _ _ _ (le_of_lt (lt_of_not_le hfull)))

theorem elitesFold_length_le :
    ∀ (elites : List Individual) (acc : List Individual × List (List ℕ)),
      ((elites.foldl
          (fun acc ind =>
            if ind.genome ∈ acc.2 then acc
            else (acc.1 ++ [{ genome := ind.genome }], acc.2 ++ [ind.genome]))
          acc).1.length ≤ acc.1.length + elites.length) := by
  intro elites
  induction elites with
  | nil => intro acc; simp
  | cons e es ih =>
      intro acc
      simp only [List.foldl_cons]
      by_cases hd : e.genome ∈ acc.2
      · rw [if_pos hd]
        exact le_trans (ih acc) (by simp)
      · rw [if_neg hd]
        refine le_trans (ih _) ?_
        simp only [List.length_append, List.length_cons, List.length_nil]
        omega

theorem evalPop_length (f : List ℕ → Option (List Char) × WithBot ℚ)
    (pop : List Individual) : (evalPop f pop).length = pop.length := by
  simp [evalPop]

theorem sort_by_fitness_length (pop : List Individual) :
    (sort_by_fitness pop).length = pop.length := by
  simp [sort_by_fitness, List.length_mergeSort]

/-- C7: whenever one call of the generation loop returns a population (no
exception, breeding finished within the model's fuel), the returned
population's size equals the input population's size. -/
theorem run_generation_preserves_size (pop : List Individual)
    (cfg : EvolutionConfig) (evalOne : List ℕ → Option (List Char) × WithBot ℚ)
    (fuel : ℕ) (r : RState) (out : List Individual × RState)
    (h : run_generation pop cfg evalOne fuel r = some out) :
    out.1.length = pop.length := by
  unfold run_generation at h
  by_cases hne : pop = []
  · rw [if_pos hne] at h
    cases h
  · rw [if_neg hne] at h
    dsimp only at h
    have h1 : (enforce_uniqueness (evalPop evalOne pop) cfg r).1.length =
        (evalPop evalOne pop).length :=
      (enforceAux_spec cfg (evalPop evalOne pop) [] r).1
    have hlen3 : (evalPop evalOne
        (enforce_uniqueness (evalPop evalOne pop) cfg r).1).length =
        pop.length := by
      rw [evalPop_length, h1, evalPop_length]
    rw [hlen3] at h
    refine breedLoop_some_length cfg _ pop.length fuel _ _ out ?_ h
    refine le_trans (elitesFold_length_le _ ([], [])) ?_
    simp only [List.length_nil, Nat.zero_add]
    refine le_trans ?_ (le_trans (select_survivors_length_le
      (evalPop evalOne (enforce_uniqueness (evalPop evalOne pop) cfg r).1) cfg
      (enforce_uniqueness (evalPop evalOne pop) cfg r).2) (le_of_eq hlen3))
    rw [List.length_take, sort_by_fitness_length]
    exact min_le_right _ _

/-- Witness for C7 on a one-individual population. -/
theorem run_generation_preserves_size_witness :
    ∃ out, run_generation [{ genome := [0] }] ⟨1, 1, 1, 1, 0, 0, 0, 0, 1⟩
        (fun _ => (none, ⊥)) 5 ⟨fun _ => 0, fun _ => 0, 0, 0⟩ = some out ∧
      out.1.length = ([{ genome := [0] }] : List Individual).length := by
  have hrun : run_generation [{ genome := [0] }] ⟨1, 1, 1, 1, 0, 0, 0, 0, 1⟩
      (fun _ => (none, ⊥)) 5 ⟨fun _ => 0, fun _ => 0, 0, 0⟩ =
      some ([{ genome := [0] }], ⟨fun _ => 0, fun _ => 0, 0, 0⟩) := by
    simp [run_generation, evalPop, enforce_uniqueness, enforceAux,
      select_survivors, sort_by_fitness, midsFilter, pyInt, breedLoop,
      randFloat, randint]
  exact ⟨_, hrun, run_generation_preserves_size _ _ _ _ _ _ hrun⟩

/-! ### C1: encode/decode round trip -/

theorem allT_nil : allT [] := by
  intro s hs
  cases hs

theorem allT_append {l1 l2 : List GSym} (h1 : allT l1) (h2 : allT l2) :
    allT (l1 ++ l2) := by
  intro s hs
  rcases List.mem_append.mp hs with h | h
  · exact h1 s h
  · exact h2 s h

theorem is_nonterminal_single (c : Char) : is_nonterminal [c] = false := by
  simp [is_nonterminal]
  rintro rfl h
  exact absurd h (by decide)

theorem allT_termsOf (cs : List Char) : allT (termsOf cs) := by
  intro s hs
  simp [termsOf] at hs
  obtain ⟨c, _, rfl⟩ := hs
  exact is_nonterminal_single c

theorem flatten_termsOf (cs : List Char) : (termsOf cs).flatten = cs := by
  induction cs with
  | nil => rfl
  | cons c cs ih => simp [termsOf] at ih ⊢; exact ih

theorem splitFirstNT_allT (l : List GSym) (h : allT l) :
    splitFirstNT l = none := by
  induction l with
  | nil => rfl
  | cons s rest ih =>
      have hs := h s (List.mem_cons_self s rest)
      have hr : allT rest := fun x hx => h x (List.mem_cons_of_mem s hx)
      simp [splitFirstNT, hs, ih hr]

theorem splitFirstNT_front (done : List GSym) (n : GSym) (rest : List GSym)
    (hdone : allT done) (hn : is_nonterminal n = true) :
    splitFirstNT (done ++ n :: rest) = some (done, n, rest) := by
  induction done with
  | nil => simp [splitFirstNT, hn]
  | cons s ds ih =>
      have hs := hdone s (List.mem_cons_self s ds)
      have hd : allT ds := fun x hx => hdone x (List.mem_cons_of_mem s hx)
      simp [splitFirstNT, hs, ih hd]

theorem decodeAux_allT (g : List ℕ) (fuel : ℕ) (l : List GSym) (idx : ℕ)
    (h : allT l) : decodeAux g fuel l idx = some l := by
  rw [decodeAux, splitFirstNT_allT l h]

theorem consumes_nil (g : List ℕ) (idx : ℕ) : Consumes g idx [] := by
  intro j hj
  simp at hj

theorem consumes_head {g : List ℕ} {idx : ℕ} {c : GSym × ℕ}
    {chs : List (GSym × ℕ)} (h : Consumes g idx (c :: chs)) :
    g.getD (idx % g.length) 0 = c.2 := by
  have h0 := h 0 (by simp)
  simpa using h0

theorem consumes_tail {g : List ℕ} {idx : ℕ} {c : GSym × ℕ}
    {chs : List (GSym × ℕ)} (h : Consumes g idx (c :: chs)) :
    Consumes g (idx + 1) chs := by
  intro j hj
  have hs := h (j + 1) (by simp; omega)
  rw [show idx + (j + 1) = idx + 1 + j by omega] at hs
  simpa using hs

theorem consumes_front {g : List ℕ} {idx : ℕ} {c1 c2 : List (GSym × ℕ)}
    (h : Consumes g idx (c1 ++ c2)) : Consumes g idx c1 := by
  intro j hj
  have hs := h j (by simp only [List.length_append]; omega)
  rwa [List.getD_append _ _ _ _ hj] at hs

theorem consumes_back {g : List ℕ} {idx : ℕ} {c1 c2 : List (GSym × ℕ)}
    (h : Consumes g idx (c1 ++ c2)) : Consumes g (idx + c1.length) c2 := by
  intro j hj
  have hs := h (c1.length + j) (by simp only [List.length_append]; omega)
  rw [show idx + (c1.length + j) = idx + c1.length + j by omega] at hs
  rw [List.getD_append_right _ _ _ _ (by omega)] at hs
  simpa using hs

theorem slice_split (expr : List Char) (pos pos1 pos2 : ℕ)
    (h1 : pos ≤ pos1) (h2 : pos1 ≤ pos2) :
    (expr.drop pos).take (pos2 - pos) =
      (expr.drop pos).take (pos1 - pos) ++ (expr.drop pos1).take (pos2 - pos1) := by
  rw [show pos2 - pos = (pos1 - pos) + (pos2 - pos1) by omega, List.take_add]
  congr 1
  rw [List.drop_drop, show pos + (pos1 - pos) = pos1 by omega]

theorem parseSeqWith_step (expr : List Char)
    (ps : GSym → ℕ → Option (ℕ × List (GSym × ℕ))) (hps : SymOK expr ps) :
    ∀ (syms : List GSym) (pos pos2 : ℕ) (chs : List (GSym × ℕ)),
      parseSeqWith ps syms pos = some (pos2, chs) →
      pos ≤ pos2 ∧
      ∀ (g : List ℕ) (fuel : ℕ) (done rest : List GSym) (idx : ℕ),
        allT done → chs.length ≤ fuel → Consumes g idx chs →
        decodeAux g fuel (done ++ syms ++ rest) idx =
          decodeAux g (fuel - chs.length)
            (done ++ termsOf ((expr.drop pos).take (pos2 - pos)) ++ rest)
            (idx + chs.length) := by
  intro syms
  induction syms with
  | nil =>
      intro pos pos2 chs h
      simp [parseSeqWith] at h
      obtain ⟨rfl, rfl⟩ := h
      refine ⟨le_refl pos, ?_⟩
      intro g fuel done rest idx hdone hfuel hcons
      simp [termsOf]
  | cons s ss ih =>
      intro pos pos2 chs h
      rw [parseSeqWith] at h
      cases hp : ps s pos with
      | none => rw [hp] at h; exact absurd h (by simp)
      | some v =>
          obtain ⟨pos1, ch1⟩ := v
          rw [hp] at h
          dsimp only at h
          cases hq : parseSeqWith ps ss pos1 with
          | none => rw [hq] at h; exact absurd h (by simp)
          | some w =>
              obtain ⟨pos2', ch2⟩ := w
              rw [hq] at h
              dsimp only at h
              obtain ⟨rfl, rfl⟩ : pos2' = pos2 ∧ ch1 ++ ch2 = chs := by
                simpa [eq_comm] using h
              obtain ⟨hle1, hsim1⟩ := hps s pos pos1 ch1 hp
              obtain ⟨hle2, hsim2⟩ := ih pos1 pos2' ch2 hq
              refine ⟨le_trans hle1 hle2, ?_⟩
              intro g fuel done rest idx hdone hfuel hcons
              rw [show (done ++ s :: ss ++ rest : List GSym) =
                    done ++ [s] ++ (ss ++ rest) by simp]
              have hlen : (ch1 ++ ch2).length = ch1.length + ch2.length :=
                List.length_append ch1 ch2
              rw [hsim1 g fuel done (ss ++ rest) idx hdone
                    (by omega) (consumes_front hcons)]
              rw [show (done ++
                    termsOf ((expr.drop pos).take (pos1 - pos)) ++ (ss ++ rest) :
                      List GSym) =
                    (done ++ termsOf ((expr.drop pos).take (pos1 - pos))) ++
                      ss ++ rest by simp]
              rw [hsim2 g (fuel - ch1.length)
                    (done ++ termsOf ((expr.drop pos).take (pos1 - pos))) rest
                    (idx + ch1.length)
                    (allT_append hdone (allT_termsOf _))
                    (by omega) (consumes_back hcons)]
              rw [slice_split expr pos pos1 pos2' hle1 hle2]
              simp only [termsOf, List.map_append, List.append_assoc]
              rw [show fuel - ch1.length - ch2.length =
                    fuel - (ch1 ++ ch2).length by omega]
              rw [show idx + ch1.length + ch2.length =
                    idx + (ch1 ++ ch2).length by omega]

theorem tryProdsWith_step
    (ps : GSym → ℕ → Option (ℕ × List (GSym × ℕ))) (sym : GSym) :
    ∀ (prods : List (List GSym)) (k pos pos2 : ℕ) (chs : List (GSym × ℕ)),
      tryProdsWith ps sym prods k pos = some (pos2, chs) →
      ∃ j chs2, j < prods.length ∧ chs = (sym, k + j) :: chs2 ∧
        parseSeqWith ps (prods.getD j []) pos = some (pos2, chs2) := by
  intro prods
  induction prods with
  | nil => intro k pos pos2 chs h; exact absurd h (by simp [tryProdsWith])
  | cons prod rest ih =>
      intro k pos pos2 chs h
      rw [tryProdsWith] at h
      cases hp : parseSeqWith ps prod pos with
      | some v =>
          obtain ⟨p2, cs⟩ := v
          rw [hp] at h
          dsimp only at h
          obtain ⟨rfl, rfl⟩ : p2 = pos2 ∧ (sym, k) :: cs = chs := by
            simpa [eq_comm] using h
          exact ⟨0, cs, by simp, by simp, by simpa using hp⟩
      | none =>
          rw [hp] at h
          dsimp only at h
          obtain ⟨j, chs2, hj, hchs, hps2⟩ := ih (k + 1) pos pos2 chs h
          refine ⟨j + 1, chs2, by simp; omega, ?_, by simpa using hps2⟩
          rw [hchs, show k + 1 + j = k + (j + 1) by omega]

theorem parseSymbol_step (expr : List Char) :
    ∀ (f : ℕ) (sym : GSym) (pos pos2 : ℕ) (chs : List (GSym × ℕ)),
      parseSymbol expr f sym pos = some (pos2, chs) →
      SymStep expr sym pos pos2 chs := by
  intro f
  induction f with
  | zero => intro sym pos pos2 chs h; exact absurd h (by simp [parseSymbol])
  | succ f ih =>
      intro sym pos pos2 chs h
      rw [parseSymbol] at h
      by_cases hnt : is_nonterminal sym
      · rw [if_pos hnt] at h
        by_cases hz : (grammarLookup sym).length = 0
        · rw [if_pos hz] at h; exact absurd h (by simp)
        rw [if_neg hz] at h
        obtain ⟨j, chs2, hj, rfl, hseq⟩ :=
          tryProdsWith_step _ sym (grammarLookup sym) 0 pos pos2 chs h
        simp only [Nat.zero_add]
        obtain ⟨hle, hsim⟩ := parseSeqWith_step expr _ ih _ pos pos2 chs2 hseq
        refine ⟨hle, ?_⟩
        intro g fuel done rest idx hdone hfuel hcons
        simp only [List.length_cons] at hfuel
        obtain ⟨fuel, rfl⟩ : ∃ f2, fuel = f2 + 1 := ⟨fuel - 1, by omega⟩
        rw [show (done ++ [sym] ++ rest : List GSym) = done ++ sym :: rest by
              simp]
        rw [decodeAux, splitFirstNT_front done sym rest hdone
              (by simpa using hnt)]
        dsimp only
        rw [if_neg hz]
        have hcodon := consumes_head hcons
        dsimp only at hcodon
        rw [hcodon, Nat.mod_eq_of_lt hj]
        have htail := consumes_tail hcons
        have hchl : (chs2).length ≤ fuel := by omega
        rw [hsim g fuel done rest (idx + 1)
              hdone hchl htail]
        simp only [List.length_cons, Nat.succ_sub_succ]
        rw [show idx + 1 + chs2.length = idx + (chs2.length + 1) by omega]
      · rw [if_neg hnt] at h
        by_cases hlt : pos < expr.length
        · rw [dif_pos hlt] at h
          by_cases heq : sym = [expr.get ⟨pos, hlt⟩]
          · rw [if_pos heq] at h
            obtain ⟨rfl, rfl⟩ : pos + 1 = pos2 ∧ ([] : List (GSym × ℕ)) = chs := by
              simpa [eq_comm] using h
            refine ⟨by omega, ?_⟩
            intro g fuel done rest idx hdone hfuel hcons
            have hdrop : expr.drop pos = expr.get ⟨pos, hlt⟩ :: expr.drop (pos + 1) := by
              rw [List.drop_eq_getElem_cons hlt]
              rfl
            rw [show pos + 1 - pos = 1 by omega, hdrop,
              show (expr.get ⟨pos, hlt⟩ :: expr.drop (pos + 1)).take 1 =
                [expr.get ⟨pos, hlt⟩] from rfl,
              show termsOf [expr.get ⟨pos, hlt⟩] = [sym] by
                simp [termsOf, heq]]
            simp
          · rw [if_neg heq] at h
            exact absurd h (by simp)
        · rw [dif_neg hlt] at h
          exact absurd h (by simp)

theorem grammarBounded :
    ∀ p ∈ GRAMMAR, ∀ prod ∈ p.2,
      1 + (prod.map maxChoices).sum ≤ maxChoices p.1 := by decide

theorem grammarLookup_mem (sym : GSym) (h : grammarLookup sym ≠ []) :
    (sym, grammarLookup sym) ∈ GRAMMAR := by
  rw [grammarLookup] at h ⊢
  cases hf : GRAMMAR.find? (fun p => p.1 = sym) with
  | none => rw [hf] at h; exact absurd rfl h
  | some p =>
      have hm := List.mem_of_find?_eq_some hf
      have hp : p.1 = sym := by
        have := List.find?_some hf
        simpa using this
      show (sym, p.2) ∈ GRAMMAR
      rw [← hp]
      simpa using hm

theorem parseSeqWith_choices_le
    (ps : GSym → ℕ → Option (ℕ × List (GSym × ℕ)))
    (hps : ∀ sym pos pos2 chs, ps sym pos = some (pos2, chs) →
      chs.length ≤ maxChoices sym) :
    ∀ (syms : List GSym) (pos pos2 : ℕ) (chs : List (GSym × ℕ)),
      parseSeqWith ps syms pos = some (pos2, chs) →
      chs.length ≤ (syms.map maxChoices).sum := by
  intro syms
  induction syms with
  | nil =>
      intro pos pos2 chs h
      simp [parseSeqWith] at h
      simp [h.2.symm]
  | cons s ss ih =>
      intro pos pos2 chs h
      rw [parseSeqWith] at h
      cases hp : ps s pos with
      | none => rw [hp] at h; exact absurd h (by simp)
      | some v =>
          obtain ⟨pos1, ch1⟩ := v
          rw [hp] at h
          dsimp only at h
          cases hq : parseSeqWith ps ss pos1 with
          | none => rw [hq] at h; exact absurd h (by simp)
          | some w =>
              obtain ⟨pos2', ch2⟩ := w
              rw [hq] at h
              dsimp only at h
              obtain ⟨rfl, rfl⟩ : pos2' = pos2 ∧ ch1 ++ ch2 = chs := by
                simpa [eq_comm] using h
              have h1 := hps s pos pos1 ch1 hp
              have h2 := ih pos1 pos2' ch2 hq
              simp only [List.length_append, List.map_cons, List.sum_cons]
              omega

theorem parseSymbol_choices_le (expr : List Char) :
    ∀ (f : ℕ) (sym : GSym) (pos pos2 : ℕ) (chs : List (GSym × ℕ)),
      parseSymbol expr f sym pos = some (pos2, chs) →
      chs.length ≤ maxChoices sym := by
  intro f
  induction f with
  | zero => intro sym pos pos2 chs h; exact absurd h (by simp [parseSymbol])
  | succ f ih =>
      intro sym pos pos2 chs h
      rw [parseSymbol] at h
      by_cases hnt : is_nonterminal sym
      · rw [if_pos hnt] at h
        by_cases hz : (grammarLookup sym).length = 0
        · rw [if_pos hz] at h; exact absurd h (by simp)
        rw [if_neg hz] at h
        obtain ⟨j, chs2, hj, rfl, hseq⟩ :=
          tryProdsWith_step _ sym (grammarLookup sym) 0 pos pos2 chs h
        have hprod : (grammarLookup sym).getD j [] ∈ grammarLookup sym := by
          rw [List.getD_eq_getElem (grammarLookup sym) [] hj]
          exact List.getElem_mem hj
        have hmem := grammarLookup_mem sym
          (fun he => hz (by rw [he]; rfl))
        have hb := grammarBounded (sym, grammarLookup sym) hmem
          ((grammarLookup sym).getD j []) hprod
        have hlen := parseSeqWith_choices_le _ ih
          ((grammarLookup sym).getD j []) pos pos2 chs2 hseq
        have hb2 : 1 + (((grammarLookup sym).getD j []).map maxChoices).sum ≤
            maxChoices sym := hb
        simp only [List.length_cons]
        omega
      · rw [if_neg hnt] at h
        by_cases hlt : pos < expr.length
        · rw [dif_pos hlt] at h
          by_cases heq : sym = [expr.get ⟨pos, hlt⟩]
          · rw [if_pos heq] at h
            obtain ⟨rfl, rfl⟩ : pos + 1 = pos2 ∧ ([] : List (GSym × ℕ)) = chs := by
              simpa [eq_comm] using h
            simp
          · rw [if_neg heq] at h
            exact absurd h (by simp)
        · rw [dif_neg hlt] at h
          exact absurd h (by simp)

theorem tileAux_length (codons : List ℕ) (hc : codons ≠ []) :
    ∀ (fuel : ℕ) (acc : List ℕ) (target : ℕ), target ≤ fuel + acc.length →
      (tileAux codons fuel acc target).length = max acc.length target := by
  intro fuel
  induction fuel with
  | zero =>
      intro acc target h
      simp only [Nat.zero_add] at h
      simp [tileAux]
      omega
  | succ f ih =>
      intro acc target h
      rw [tileAux]
      have hcl : 0 < codons.length := List.length_pos.mpr hc
      by_cases hg : acc.length < target ∧ codons ≠ []
      · rw [if_pos hg]
        have hlen : (acc ++ codons.take (target - acc.length)).length =
            acc.length + min (target - acc.length) codons.length := by
          simp [List.length_append, List.length_take]
        rw [ih _ target (by omega)]
        rw [hlen]
        omega
      · rw [if_neg hg]
        have : ¬ acc.length < target := by
          intro hlt
          exact hg ⟨hlt, hc⟩
        omega
  
theorem tileAux_front (codons : List ℕ) :
    ∀ (fuel : ℕ) (acc : List ℕ) (target : ℕ),
      ∃ t, tileAux codons fuel acc target = acc ++ t := by
  intro fuel
  induction fuel with
  | zero => intro acc target; exact ⟨[], by simp [tileAux]⟩
  | succ f ih =>
      intro acc target
      rw [tileAux]
      by_cases hg : acc.length < target ∧ codons ≠ []
      · rw [if_pos hg]
        obtain ⟨t, ht⟩ := ih (acc ++ codons.take (target - acc.length)) target
        exact ⟨codons.take (target - acc.length) ++ t, by simp [ht]⟩
      · rw [if_neg hg]
        exact ⟨[], by simp⟩

theorem getD_eq_of_front {l1 l2 t : List ℕ} (h : l2 = l1 ++ t) (j : ℕ)
    (hj : j < l1.length) : l2.getD j 0 = l1.getD j 0 := by
  rw [h, List.getD_append _ _ _ _ hj]

theorem consumes_map_front (chs : List (GSym × ℕ)) (g : List ℕ) (t : List ℕ)
    (hg : g = chs.map Prod.snd ++ t) (hlen : chs.length ≤ g.length) :
    Consumes g 0 chs := by
  intro j hj
  rw [Nat.zero_add, Nat.mod_eq_of_lt (by omega)]
  rw [getD_eq_of_front hg j (by simpa using hj)]
  rw [List.getD_eq_getElem _ _ (by simpa using hj), List.getD_eq_getElem _ _ hj]
  simp

theorem decode_of_parse (expr : List Char) (g : List ℕ) (pos2 : ℕ)
    (chs : List (GSym × ℕ))
    (hpar : parseSymbol expr PARSE_FUEL START_SYMBOL 0 = some (pos2, chs))
    (hend : pos2 = expr.length) (h6 : expr.length = 6)
    (hglen : chs.length ≤ g.length) (hgne : g.length ≠ 0)
    (hcons : Consumes g 0 chs) :
    decode_genome_to_expr g = some expr := by
  obtain ⟨hle, hsim⟩ :=
    parseSymbol_step expr PARSE_FUEL START_SYMBOL 0 pos2 chs hpar
  have hb : chs.length ≤ maxChoices START_SYMBOL :=
    parseSymbol_choices_le expr PARSE_FUEL START_SYMBOL 0 pos2 chs hpar
  have h100 : chs.length ≤ 100 :=
    le_trans hb (by decide)
  have hrw := hsim g 100 [] [] 0 allT_nil h100 hcons
  simp only [List.nil_append, List.append_nil] at hrw
  have hslice : (expr.drop 0).take (pos2 - 0) = expr := by
    rw [List.drop_zero, Nat.sub_zero, hend, List.take_length]
  rw [hslice] at hrw
  rw [decode_genome_to_expr, if_neg hgne, hrw,
    decodeAux_allT g _ (termsOf expr) _ (allT_termsOf expr)]
  simp [flatten_termsOf expr, h6]

/-- C1 (amended): the encode/decode round trip holds for every genome length
at or above the derivation length (the number of choices the parse records):
if the encoder accepts `expr` at target length `L` and the recorded choice
list fits in `L` codons, decoding the produced genome yields `expr` again.
(Below the derivation length the truncation step loses codons and the round
trip fails; see the counterexample.) -/
theorem encode_decode_roundtrip (expr : List Char) (L : ℕ) (g : List ℕ)
    (pos2 : ℕ) (chs : List (GSym × ℕ))
    (hpar : parseSymbol expr PARSE_FUEL START_SYMBOL 0 = some (pos2, chs))
    (hL : chs.length ≤ L)
    (henc : encode_expr_to_genome expr L = some g) :
    decode_genome_to_expr g = some expr := by
  rw [encode_expr_to_genome, hpar] at henc
  split at henc
  · exact absurd henc (by simp)
  next h6 =>
  split at henc
  · exact absurd henc (by simp)
  next hchars =>
  split at henc
  · exact absurd henc (by simp)
  next heval =>
  dsimp only at henc
  split at henc
  · exact absurd henc (by simp)
  next hend =>
  split at henc
  · exact absurd henc (by simp)
  next hvalid =>
  split at henc
  · exact absurd henc (by simp)
  next hcod =>
  have h6' : expr.length = 6 := by omega
  have hend' : pos2 = expr.length := by omega
  have hchs : chs ≠ [] := fun he => hcod (by rw [he]; rfl)
  have hchsl : 0 < chs.length := List.length_pos.mpr hchs
  have hmlen : (chs.map Prod.snd).length = chs.length := List.length_map _ _
  split at henc
  next hge =>
    have hLeq : L = chs.length := by omega
    have hg : g = chs.map Prod.snd := by
      have := henc
      simp only [Option.some.injEq] at this
      rw [← this, List.take_of_length_le (by omega)]
    have hglen : chs.length ≤ g.length := by rw [hg, hmlen]
    exact decode_of_parse expr g pos2 chs hpar hend' h6' hglen
      (by omega) (consumes_map_front chs g [] (by rw [hg, List.append_nil]) hglen)
  next hlt =>
    have hcl : 0 < (chs.map Prod.snd).length := by omega
    obtain ⟨m, rfl⟩ : ∃ m, L = m + 1 := ⟨L - 1, by omega⟩
    have hcodne : chs.map Prod.snd ≠ [] := fun he => hcod he
    have hstep : tileAux (chs.map Prod.snd) (m + 1) [] (m + 1) =
        tileAux (chs.map Prod.snd) m (chs.map Prod.snd) (m + 1) := by
      rw [tileAux, if_pos ⟨by simp, hcodne⟩]
      show tileAux (chs.map Prod.snd) m
        ([] ++ (chs.map Prod.snd).take (m + 1 - List.length [])) (m + 1) = _
      rw [List.nil_append, List.take_of_length_le (by simp; omega)]
    obtain ⟨t, ht⟩ := tileAux_front (chs.map Prod.snd) m (chs.map Prod.snd) (m + 1)
    have hg : g = chs.map Prod.snd ++ t := by
      have := henc
      simp only [Option.some.injEq] at this
      rw [← this, hstep, ht]
    have hglen2 : g.length = m + 1 := by
      have := henc
      simp only [Option.some.injEq] at this
      rw [← this, hstep,
        tileAux_length (chs.map Prod.snd) hcodne m (chs.map Prod.snd) (m + 1)
          (by omega)]
      omega
    exact decode_of_parse expr g pos2 chs hpar hend' h6' (by omega) (by omega)
      (consumes_map_front chs g t hg (by omega))

/-- C1 witness: for the phenotype `1+2345` at genome length 20 (above its
derivation length 14) the parse, the length bound and the encoding are all
concrete, and decoding the encoded genome reproduces the phenotype. -/
theorem encode_decode_roundtrip_witness :
    parseSymbol ['1', '+', '2', '3', '4', '5'] PARSE_FUEL START_SYMBOL 0 =
        some (6, rtChoices) ∧
    rtChoices.length ≤ 20 ∧
    encode_expr_to_genome ['1', '+', '2', '3', '4', '5'] 20 = some rtGenome ∧
    decode_genome_to_expr rtGenome = some ['1', '+', '2', '3', '4', '5'] :=
  ⟨by decide, by decide, by decide,
    encode_decode_roundtrip ['1', '+', '2', '3', '4', '5'] 20 rtGenome 6
      rtChoices (by decide) (by decide) (by decide)⟩

/-- C1 counterexample: below the minimum derivation length the round trip
fails.  Encoding `200000` at genome length 1 truncates the 8 recorded codons
to `[0]`, and decoding `[0]` yields the different phenotype `100000`. -/
theorem encode_truncation_breaks_roundtrip :
    encode_expr_to_genome ['2', '0', '0', '0', '0', '0'] 1 = some [0] ∧
    decode_genome_to_expr [0] = some ['1', '0', '0', '0', '0', '0'] ∧
    (['1', '0', '0', '0', '0', '0'] : List Char) ≠
      ['2', '0', '0', '0', '0', '0'] := by
  refine ⟨by decide, by decide, by decide⟩
